import Mathlib

/-! # The UTF-16 line scanner of `ad2j.go`

A shallow embedding of the scanner in `src/ad2j.go`: the decoder
`UTF16BytesToString`, the carriage-return trimmers `dropCREndian`, `dropCRBE`,
`dropCRLE`, `dropCR`, and the closure pair returned by `ScanUTF16LinesFunc`
(the split function and the order accessor).

Conventions of the embedding.

* A byte is a natural number below 256 and a `[]byte` is a `List Nat`; a
  16-bit code unit is a natural number below 65536.
* A Go operation that can panic (an index or a slice expression out of range, a
  method call on a nil interface) returns `Option`, and `none` is the panic.
* The closure variables `endian` and `checkBOM` of `ScanUTF16LinesFunc` are the
  fields of `Scanner`; the split function takes the scanner state and returns the
  state it leaves behind.
* The unbounded `for` loops take a fuel argument; running out of fuel is `none`
  as well.  The callers pass enough fuel, which is proved below.
* `runtime.GOOS` is the parameter `GOOS`.
-/

namespace Ad2j

/-! ## Data model -/

/-- UTF-16 endian byte order, the constants `unknownEndian`, `bigEndian`,
`littleEndian` of the source. -/
inductive Endian where
  | unknownEndian
  | bigEndian
  | littleEndian
  deriving DecidableEq, Repr

open Endian

/-- Non-nil values of `binary.ByteOrder` the program distinguishes:
`binary.BigEndian` and `binary.LittleEndian`.  The nil interface value is
`none : Option ByteOrder`. -/
inductive ByteOrder where
  | BigEndian
  | LittleEndian
  deriving DecidableEq, Repr

/-- Closure variables of `ScanUTF16LinesFunc`. -/
structure Scanner where
  endian : Endian
  checkBOM : Bool
  deriving DecidableEq, Repr

/-- Result triple `(advance, token, err)` of a `bufio.SplitFunc`; a nil token or
a nil error is `none`. -/
structure SplitResult where
  advance : Nat
  token : Option (List Nat)
  err : Option String
  deriving DecidableEq, Repr

/-! ## Go primitives -/

/-- Conversion `uint16(x)`. -/
def uint16 (x : Nat) : Nat := x % 65536

/-- Conversion `byte(x)`. -/
def byte (x : Nat) : Nat := x % 256

/-- Slice expression `data[lo:hi]`; out of range is a panic. -/
def slice (data : List Nat) (lo hi : Nat) : Option (List Nat) :=
  if lo ≤ hi ∧ hi ≤ data.length then some ((data.take hi).drop lo) else none

/-- Slice expression `data[lo:]`. -/
def sliceFrom (data : List Nat) (lo : Nat) : Option (List Nat) :=
  slice data lo data.length

/-- Library function `bytes.IndexByte`: the index of the first instance of `c`
in `b`; the result `-1` of the library is `none`. -/
def IndexByte : List Nat → Nat → Option Nat
  | [], _ => none
  | x :: xs, c =>
    if x = c then some 0
    else match IndexByte xs c with
      | none => none
      | some j => some (j + 1)

/-- Method `Uint16` of `binary.BigEndian` and `binary.LittleEndian`; on the nil
interface the call panics, and so does a slice shorter than two bytes. -/
def ByteOrder.Uint16 (o : Option ByteOrder) (b : List Nat) : Option Nat :=
  match o with
  | none => none
  | some ByteOrder.BigEndian =>
    match b[1]?, b[0]? with
    | some b1, some b0 => some (uint16 b1 ||| uint16 (uint16 b0 <<< 8))
    | _, _ => none
  | some ByteOrder.LittleEndian =>
    match b[1]?, b[0]? with
    | some b1, some b0 => some (uint16 b0 ||| uint16 (uint16 b1 <<< 8))
    | _, _ => none

/-- Library function `utf16.DecodeRune` on a valid surrogate pair. -/
def DecodeRune (r1 r2 : Nat) : Nat :=
  (((r1 - 0xd800) <<< 10) ||| (r2 - 0xdc00)) + 0x10000

/-- Library function `utf16.Decode`: the code points of a sequence of code
units, an unpaired surrogate giving U+FFFD. -/
def utf16Decode : List Nat → List Nat
  | [] => []
  | [r] => if r < 0xd800 ∨ 0xe000 ≤ r then [r] else [0xFFFD]
  | r :: r2 :: rest =>
    if r < 0xd800 ∨ 0xe000 ≤ r then r :: utf16Decode (r2 :: rest)
    else if 0xd800 ≤ r ∧ r < 0xdc00 ∧ 0xdc00 ≤ r2 ∧ r2 < 0xe000 then
      DecodeRune r r2 :: utf16Decode rest
    else 0xFFFD :: utf16Decode (r2 :: rest)

/-- Library function `utf8.AppendRune`: the UTF-8 bytes of one rune, an invalid
rune (a surrogate or a value above U+10FFFF) being encoded as U+FFFD. -/
def utf8EncodeRune (r : Nat) : List Nat :=
  if r ≤ 0x7F then [byte r]
  else if r ≤ 0x7FF then [0xC0 ||| byte (r >>> 6), 0x80 ||| (byte r &&& 0x3F)]
  else if r > 0x10FFFF ∨ (0xD800 ≤ r ∧ r ≤ 0xDFFF) then [0xEF, 0xBF, 0xBD]
  else if r ≤ 0xFFFF then
    [0xE0 ||| byte (r >>> 12), 0x80 ||| (byte (r >>> 6) &&& 0x3F), 0x80 ||| (byte r &&& 0x3F)]
  else
    [0xF0 ||| byte (r >>> 18), 0x80 ||| (byte (r >>> 12) &&& 0x3F),
      0x80 ||| (byte (r >>> 6) &&& 0x3F), 0x80 ||| (byte r &&& 0x3F)]

/-- Conversion `string(runes)`: the UTF-8 bytes of a rune slice. -/
def stringOfRunes (rs : List Nat) : List Nat :=
  rs.flatMap utf8EncodeRune

/-! ## The decoder -/

/-- The `for` loop of `UTF16BytesToString`:
`for i := 0; i+(2-1) < len(b); i += 2 { utf[i/2] = o.Uint16(b[i:]) }`. -/
def decodeLoop (b : List Nat) (o : Option ByteOrder) : Nat → Nat → List Nat → Option (List Nat)
  | 0, _, _ => none
  | fuel + 1, i, utf =>
    if i + (2 - 1) < b.length then
      match sliceFrom b i with
      | none => none
      | some bi =>
        match ByteOrder.Uint16 o bi with
        | none => none
        | some v =>
          if i / 2 < utf.length then decodeLoop b o fuel (i + 2) (utf.set (i / 2) v)
          else none
    else some utf

/-- Function `UTF16BytesToString`: converts UTF-16 encoded bytes, in big or
little endian byte order, to a UTF-8 encoded string (its bytes). -/
def UTF16BytesToString (b : List Nat) (o : Option ByteOrder) : Option (List Nat) :=
  let utf := List.replicate ((b.length + (2 - 1)) / 2) 0
  match decodeLoop b o (b.length + 1) 0 utf with
  | none => none
  | some utf =>
    let utf := if b.length / 2 < utf.length then utf.set (utf.length - 1) 0xFFFD else utf
    some (stringOfRunes (utf16Decode utf))

/-! ## The carriage-return trimmers -/

/-- Function `dropCREndian`: drops a terminal `\r` from the endian data. -/
def dropCREndian (data : List Nat) (t1 t2 : Nat) : Option (List Nat) :=
  if data.length > 1 then
    match data[data.length - 2]?, data[data.length - 1]? with
    | some x, some y =>
      if x = t1 ∧ y = t2 then slice data 0 (data.length - 2) else some data
    | _, _ => none
  else some data

/-- Function `dropCRBE`: drops a terminal `\r` from the big endian data. -/
def dropCRBE (data : List Nat) : Option (List Nat) :=
  dropCREndian data 0x00 0x0D

/-- Function `dropCRLE`: drops a terminal `\r` from the little endian data. -/
def dropCRLE (data : List Nat) : Option (List Nat) :=
  dropCREndian data 0x0D 0x00

/-- Function `dropCR`: returns its argument together with the order whose trimmer
shortens it. -/
def dropCR (data : List Nat) : Option (List Nat × Endian) :=
  match dropCRLE data with
  | none => none
  | some le =>
    if data.length ≠ le.length then some (data, littleEndian)
    else match dropCRBE data with
      | none => none
      | some be =>
        if data.length ≠ be.length then some (data, bigEndian)
        else some (data, unknownEndian)

/-! ## The scanner -/

/-- Function `ScanUTF16LinesFunc`, the initial values of its closure variables
for the byte order passed in (`none` is the nil interface). -/
def ScanUTF16LinesFunc (byteOrder : Option ByteOrder) : Scanner :=
  let endian :=
    match byteOrder with
    | some ByteOrder.BigEndian => bigEndian
    | some ByteOrder.LittleEndian => littleEndian
    | none => unknownEndian
  { endian := endian, checkBOM := decide (endian = unknownEndian) }

/-- Constant `bom` of `ScanUTF16LinesFunc`. -/
def bom : Nat := 0xFEFF

/-- Outcome of the `switch` on the parity of `i` inside the scanning loop: the
closure returns a line, or control leaves the `switch` with the value `i` has
then. -/
inductive SwitchOutcome where
  | ret (advance : Nat) (token : List Nat) (endian : Endian)
  | next (i : Nat)
  deriving DecidableEq, Repr

/-- The `switch e := i % 2; e` statement of the scanning loop. -/
def switchParity (data : List Nat) (endian : Endian) (i : Nat) : Option SwitchOutcome :=
  if i % 2 = 1 then
    -- UTF-16BE
    if endian ≠ littleEndian then
      if i > 1 then
        match data[i - 1]? with
        | none => none
        | some b =>
          if b = 0x00 then
            match slice data 0 (i - 1) with
            | none => none
            | some line =>
              match dropCRBE line with
              | none => none
              | some token => some (SwitchOutcome.ret (i + 1) token bigEndian)
          else some (SwitchOutcome.next i)
      else some (SwitchOutcome.next i)
    else some (SwitchOutcome.next i)
  else
    -- UTF-16LE
    if endian ≠ bigEndian then
      if i + 1 < data.length then
        let i := i + 1
        match data[i]? with
        | none => none
        | some b =>
          if b = 0x00 then
            match slice data 0 (i - 1) with
            | none => none
            | some line =>
              match dropCRLE line with
              | none => none
              | some token => some (SwitchOutcome.ret (i + 1) token littleEndian)
          else some (SwitchOutcome.next i)
      else some (SwitchOutcome.next i)
    else some (SwitchOutcome.next i)

/-- The loop `for { j := bytes.IndexByte(data[i:], '\n'); ... ; i++ }` of the
split function.  The result `some none` is the `break`, and
`some (some (advance, token, endian))` a return from inside the loop with the
order it has assigned. -/
def scanLoop (data : List Nat) (endian : Endian) :
    Nat → Nat → Option (Option (Nat × List Nat × Endian))
  | 0, _ => none
  | fuel + 1, i =>
    match sliceFrom data i with
    | none => none
    | some rest =>
      match IndexByte rest 0x0A with
      | none => some none
      | some j =>
        match switchParity data endian (i + j) with
        | none => none
        | some (SwitchOutcome.ret advance token e) => some (some (advance, token, e))
        | some (SwitchOutcome.next i1) => scanLoop data endian fuel (i1 + 1)

/-- The part of the split function after the mark check: the scanning loop, the
final flush at end of stream, and the request for more data.  The argument
`s` holds the closure variables as the mark check leaves them. -/
def scanLines (GOOS : String) (s : Scanner) (data : List Nat) (atEOF : Bool) :
    Option (SplitResult × Scanner) :=
  match scanLoop data s.endian (data.length + 1) 0 with
  | none => none
  | some (some (advance, token, e)) =>
    some ({ advance := advance, token := some token, err := none }, { s with endian := e })
  | some none =>
    if atEOF then
      -- a final, non-terminated line
      let advance := data.length
      let trimmed : Option (List Nat × Endian) :=
        match s.endian with
        | bigEndian =>
          match dropCRBE data with
          | none => none
          | some d => some (d, s.endian)
        | littleEndian =>
          match dropCRLE data with
          | none => none
          | some d => some (d, s.endian)
        | unknownEndian => dropCR data
      match trimmed with
      | none => none
      | some (d, e) =>
        let e :=
          if e = unknownEndian then
            if GOOS = "windows" then littleEndian else bigEndian
          else e
        some ({ advance := advance, token := some d, err := none }, { s with endian := e })
    else
      -- request more data
      some ({ advance := 0, token := none, err := none }, s)

/-- The closure `splitFunc` of `ScanUTF16LinesFunc`, from the closure variables
before the call to the result triple and the closure variables after it. -/
def splitFunc (GOOS : String) (s : Scanner) (data : List Nat) (atEOF : Bool) :
    Option (SplitResult × Scanner) :=
  if atEOF ∧ data.length = 0 then
    some ({ advance := 0, token := none, err := none }, s)
  else if s.checkBOM then
    let s := { s with checkBOM := false }
    if data.length > 1 then
      match data[0]?, data[1]? with
      | some d0, some d1 =>
        if uint16 bom = uint16 (uint16 d0 <<< 8) ||| uint16 d1 then
          some ({ advance := 2, token := none, err := none }, { s with endian := bigEndian })
        else if uint16 bom = uint16 (uint16 d1 <<< 8) ||| uint16 d0 then
          some ({ advance := 2, token := none, err := none }, { s with endian := littleEndian })
        else scanLines GOOS s data atEOF
      | _, _ => none
    else scanLines GOOS s data atEOF
  else scanLines GOOS s data atEOF

/-- The closure `orderFunc` of `ScanUTF16LinesFunc`: the byte order resolved so
far, nil while it is unknown. -/
def orderFunc (s : Scanner) : Option ByteOrder :=
  match s.endian with
  | bigEndian => some ByteOrder.BigEndian
  | littleEndian => some ByteOrder.LittleEndian
  | unknownEndian => none

/-! ## Vocabulary of the specification -/

/-- Specification, section 4.2 and the glossary (parity heuristic): byte position
`i` of the buffer is a terminator pattern consistent with the current order when
`data[i] = 0x0A` and either `i` is odd, `data[i-1] = 0x00` and the order is not
Little, or `i` is even, `i+1 < len(data)`, `data[i+1] = 0x00` and the order is not
Big. -/
def terminatorAt (endian : Endian) (data : List Nat) (i : Nat) : Prop :=
  data[i]? = some 0x0A ∧
    ((i % 2 = 1 ∧ data[i - 1]? = some 0x00 ∧ endian ≠ littleEndian) ∨
      (i % 2 = 0 ∧ i + 1 < data.length ∧ data[i + 1]? = some 0x00 ∧ endian ≠ bigEndian))

instance (endian : Endian) (data : List Nat) (i : Nat) : Decidable (terminatorAt endian data i) := by
  unfold terminatorAt
  infer_instance

/-- Specification, section 4.3: the line with one trailing two-byte unit `t1 t2`
removed if its last two bytes are `t1 t2`, and the line itself otherwise. -/
def withoutTrailing (t1 t2 : Nat) (line : List Nat) : List Nat :=
  if line.drop (line.length - 2) = [t1, t2] then line.take (line.length - 2) else line

/-- The two bytes of the carriage-return code unit 0x000D in a byte order. -/
def crBytes : ByteOrder → Nat × Nat
  | ByteOrder.BigEndian => (0x00, 0x0D)
  | ByteOrder.LittleEndian => (0x0D, 0x00)

/-- The closure variable value that stands for a byte order. -/
def endianOf : ByteOrder → Endian
  | ByteOrder.BigEndian => bigEndian
  | ByteOrder.LittleEndian => littleEndian

/-- The byte pair of one 16-bit code unit in a byte order. -/
def unitBytes : ByteOrder → Nat → List Nat
  | ByteOrder.BigEndian, x => [x / 256 % 256, x % 256]
  | ByteOrder.LittleEndian, x => [x % 256, x / 256 % 256]

/-- The byte encoding of a sequence of 16-bit code units in a byte order. -/
def encodeUnits (o : ByteOrder) (u : List Nat) : List Nat :=
  u.flatMap (unitBytes o)

/-- A Unicode scalar value: a code point up to U+10FFFF outside the surrogate
range. -/
def isScalar (r : Nat) : Prop :=
  r < 0xD800 ∨ (0xE000 ≤ r ∧ r ≤ 0x10FFFF)

instance (r : Nat) : Decidable (isScalar r) := by
  unfold isScalar
  infer_instance

/-- The UTF-16 code units of one scalar value: the value itself up to U+FFFF, and
above it the surrogate pair of the 20 bits of `r - 0x10000`. -/
def utf16EncodeRune (r : Nat) : List Nat :=
  if r < 0x10000 then [r]
  else [0xD800 + (r - 0x10000) / 1024 % 1024, 0xDC00 + (r - 0x10000) % 1024]

/-- The UTF-16 encoding of a sequence of scalar values. -/
def utf16Encode (rs : List Nat) : List Nat :=
  rs.flatMap utf16EncodeRune

/-- A code-unit-aligned newline in order `X` at the even offset `k` of a token:
the bytes `00 0A` for Big, `0A 00` for Little. -/
def alignedNewlineAt (X : ByteOrder) (token : List Nat) (k : Nat) : Prop :=
  k % 2 = 0 ∧
    match X with
    | ByteOrder.BigEndian => token[k]? = some 0x00 ∧ token[k + 1]? = some 0x0A
    | ByteOrder.LittleEndian => token[k]? = some 0x0A ∧ token[k + 1]? = some 0x00

instance (X : ByteOrder) (token : List Nat) (k : Nat) :
    Decidable (alignedNewlineAt X token k) := by
  unfold alignedNewlineAt
  cases X <;> infer_instance

/-! ## Vocabulary of the proofs -/

/-- The 16-bit code unit that `Uint16` reads from the byte pair `a b` in a byte
order. -/
def wordOf : ByteOrder → Nat → Nat → Nat
  | ByteOrder.BigEndian, a, b => uint16 b ||| uint16 (uint16 a <<< 8)
  | ByteOrder.LittleEndian, a, b => uint16 a ||| uint16 (uint16 b <<< 8)

/-- The code units of the complete byte pairs of a byte sequence, read in a byte
order; an unpaired last byte is left out. -/
def unitsOf (o : ByteOrder) : List Nat → List Nat
  | a :: b :: rest => wordOf o a b :: unitsOf o rest
  | _ => []

/-- Byte position of the newline byte `0A` of the terminator in the encoding of
`u` followed by the code units 0x000D, 0x000A: the second byte of the last pair for
Big, the first for Little. -/
def newlinePos : ByteOrder → List Nat → Nat
  | ByteOrder.BigEndian, u => 2 * u.length + 3
  | ByteOrder.LittleEndian, u => 2 * u.length + 2

/-- The code hits a terminator at byte position `k`: the conditions under which
the parity `switch` of the scanning loop returns a line when the newline byte found
is at `k`. -/
def lineHit (endian : Endian) (data : List Nat) (k : Nat) : Prop :=
  data[k]? = some 0x0A ∧
    ((k % 2 = 1 ∧ endian ≠ littleEndian ∧ 1 < k ∧ data[k - 1]? = some 0x00) ∨
      (k % 2 = 0 ∧ endian ≠ bigEndian ∧ k + 1 < data.length ∧ data[k + 1]? = some 0x00))

/-- The line the scanning loop returns for a hit at `k`: the advance, the token
and the order it assigns. -/
def lineOfHit (data : List Nat) (k : Nat) : Nat × List Nat × Endian :=
  if k % 2 = 1 then (k + 1, withoutTrailing 0x00 0x0D (data.take (k - 1)), bigEndian)
  else (k + 2, withoutTrailing 0x0D 0x00 (data.take k), littleEndian)

instance (endian : Endian) (data : List Nat) (k : Nat) : Decidable (lineHit endian data k) := by
  unfold lineHit
  infer_instance

/-- The order `dropCR` reports for a line: Little if it ends in `0D 00`, Big if
it ends in `00 0D`, and unknown otherwise. -/
def crEvidence (data : List Nat) : Endian :=
  if data.drop (data.length - 2) = [0x0D, 0x00] then littleEndian
  else if data.drop (data.length - 2) = [0x00, 0x0D] then bigEndian
  else unknownEndian

/-- The mark check of a call returns: the check is still pending and the buffer
begins with the two bytes of U+FEFF in one of the two orders. -/
def markReturns (s : Scanner) (data : List Nat) : Prop :=
  s.checkBOM = true ∧
    match data with
    | d0 :: d1 :: _ =>
      uint16 bom = uint16 (uint16 d0 <<< 8) ||| uint16 d1 ∨
        uint16 bom = uint16 (uint16 d1 <<< 8) ||| uint16 d0
    | _ => False

instance (s : Scanner) (data : List Nat) : Decidable (markReturns s data) := by
  unfold markReturns
  match data with
  | [] => infer_instance
  | [_] => infer_instance
  | _ :: _ :: _ => infer_instance

/-- The end-of-stream call on `data` reaches the final flush: the buffer is not
empty, the mark check does not return, and the scanning loop ends in its
`break`. -/
def reachesFinalFlush (s : Scanner) (data : List Nat) : Prop :=
  data ≠ [] ∧ ¬ markReturns s data ∧
    scanLoop data s.endian (data.length + 1) 0 = some none

instance (s : Scanner) (data : List Nat) : Decidable (reachesFinalFlush s data) := by
  unfold reachesFinalFlush
  infer_instance

/-- The read loop of `main` over an input that arrives in chunks: the split
function is called on the bytes buffered so far, with the end-of-stream flag set
once the last chunk has been appended; the bytes it consumes are removed, a token
it returns is decoded by `UTF16BytesToString` with the order `orderFunc` gives at
that moment, and when it asks for more data the next chunk is appended.  As in
`bufio.Scanner`, the split function is not called on an empty buffer before the
end of the stream.  The result is the decoded lines and the order resolved at the
end. -/
def readLoop (GOOS : String) :
    Nat → Scanner → List Nat → List (List Nat) → List (List Nat) →
      Option (List (List Nat) × Option ByteOrder)
  | 0, _, _, _, _ => none
  | fuel + 1, s, buf, chunks, lines =>
    match buf, chunks with
    | [], c :: cs => readLoop GOOS fuel s c cs lines
    | _, _ =>
      match splitFunc GOOS s buf chunks.isEmpty with
      | none => none
      | some (r, s1) =>
        let decoded : Option (List (List Nat)) :=
          match r.token with
          | none => some lines
          | some token =>
            match UTF16BytesToString token (orderFunc s1) with
            | none => none
            | some line => some (lines ++ [line])
        match decoded with
        | none => none
        | some lines1 =>
          if r.advance > 0 then readLoop GOOS fuel s1 (buf.drop r.advance) chunks lines1
          else
            match chunks with
            | [] => some (lines1, orderFunc s1)
            | c :: cs => readLoop GOOS fuel s1 (buf ++ c) cs lines1

/-- A fresh scanner with no byte order supplied, driven by `readLoop` over the
chunks of an input. -/
def scanChunks (GOOS : String) (chunks : List (List Nat)) :
    Option (List (List Nat) × Option ByteOrder) :=
  readLoop GOOS (2 * (chunks.flatten.length + chunks.length) + 2)
    (ScanUTF16LinesFunc none) [] chunks []

/-- The token of the final flush: the buffer trimmed by the trimmer of the order
fixed at that point, and the buffer itself while the order is unknown. -/
def flushToken (endian : Endian) (data : List Nat) : List Nat :=
  match endian with
  | bigEndian => withoutTrailing 0x00 0x0D data
  | littleEndian => withoutTrailing 0x0D 0x00 data
  | unknownEndian => data

/-- The order the final flush leaves behind: a fixed order is kept, an unknown one
is resolved by the evidence of `dropCR` and failing that by the platform default. -/
def flushOrder (GOOS : String) (endian : Endian) (data : List Nat) : Endian :=
  match endian with
  | bigEndian => bigEndian
  | littleEndian => littleEndian
  | unknownEndian =>
    if crEvidence data = unknownEndian then
      (if GOOS = "windows" then littleEndian else bigEndian)
    else crEvidence data

/-- The closure states a scanner can be in: the state `ScanUTF16LinesFunc` builds
for some byte order, and every state a call of the split function leaves behind
when made in such a state. -/
inductive Reachable (GOOS : String) : Scanner → Prop where
  | init (byteOrder : Option ByteOrder) : Reachable GOOS (ScanUTF16LinesFunc byteOrder)
  | call (s : Scanner) (data : List Nat) (atEOF : Bool) (r : SplitResult) (s1 : Scanner) :
      Reachable GOOS s → splitFunc GOOS s data atEOF = some (r, s1) → Reachable GOOS s1

/-! ## Lemmas on the primitives -/

theorem slice_zero (data : List Nat) (hi : Nat) (h : hi ≤ data.length) :
    slice data 0 hi = some (data.take hi) := by
  simp [slice, h]

theorem sliceFrom_eq (data : List Nat) (i : Nat) (h : i ≤ data.length) :
    sliceFrom data i = some (data.drop i) := by
  simp [sliceFrom, slice, h]

theorem IndexByte_none (l : List Nat) (c : Nat) (h : IndexByte l c = none) :
    ∀ k : Nat, l[k]? ≠ some c := by
  induction l with
  | nil => intro k; simp
  | cons x xs ih =>
    intro k
    unfold IndexByte at h
    split at h
    · simp at h
    · rename_i hx
      split at h
      · rename_i hn
        cases k with
        | zero => simpa using hx
        | succ k => simpa using ih hn k
      · simp at h

theorem IndexByte_some (l : List Nat) (c : Nat) (j : Nat) (h : IndexByte l c = some j) :
    l[j]? = some c ∧ ∀ k : Nat, k < j → l[k]? ≠ some c := by
  induction l generalizing j with
  | nil => simp [IndexByte] at h
  | cons x xs ih =>
    unfold IndexByte at h
    split at h
    · rename_i hx
      simp at h
      subst h
      simp [hx]
    · rename_i hx
      split at h
      · simp at h
      · rename_i j1 hj
        simp at h
        subst h
        obtain ⟨h1, h2⟩ := ih j1 hj
        refine ⟨by simpa using h1, ?_⟩
        intro k hk
        cases k with
        | zero => simpa using hx
        | succ k => simpa using h2 k (by omega)

theorem dropCREndian_eq (data : List Nat) (t1 t2 : Nat) :
    dropCREndian data t1 t2 = some (withoutTrailing t1 t2 data) := by
  unfold dropCREndian withoutTrailing
  by_cases hlen : data.length > 1
  · have h2 : data.length - 2 < data.length := by omega
    have h1 : data.length - 1 < data.length := by omega
    have hd : data.drop (data.length - 2) = [data[data.length - 2], data[data.length - 1]] := by
      rw [List.drop_eq_getElem_cons h2]
      have e : data.length - 2 + 1 = data.length - 1 := by omega
      rw [e, List.drop_eq_getElem_cons h1]
      have e2 : data.length - 1 + 1 = data.length := by omega
      simp [e2]
    simp only [hlen, if_true, List.getElem?_eq_getElem h2, List.getElem?_eq_getElem h1, hd]
    by_cases hc : data[data.length - 2] = t1 ∧ data[data.length - 1] = t2
    · simp [hc, slice]
    · have : ¬ ([data[data.length - 2], data[data.length - 1]] = [t1, t2]) := by
        simpa using hc
      simp [hc]
  · have hne : ¬ (data.drop (data.length - 2) = [t1, t2]) := by
      intro h
      have := congrArg List.length h
      simp at this
      omega
    simp [hlen, hne]

theorem dropCRBE_eq (data : List Nat) :
    dropCRBE data = some (withoutTrailing 0x00 0x0D data) :=
  dropCREndian_eq data 0x00 0x0D

theorem dropCRLE_eq (data : List Nat) :
    dropCRLE data = some (withoutTrailing 0x0D 0x00 data) :=
  dropCREndian_eq data 0x0D 0x00

/-! ## The scanning loop -/

theorem lineHit_lt (endian : Endian) (data : List Nat) (k : Nat) (h : lineHit endian data k) :
    k < data.length := by
  obtain ⟨h0, _⟩ := h
  by_contra hc
  rw [List.getElem?_eq_none (by omega)] at h0
  simp at h0

theorem switchParity_hit (endian : Endian) (data : List Nat) (k : Nat)
    (h : lineHit endian data k) :
    switchParity data endian k =
      some (SwitchOutcome.ret (lineOfHit data k).1 (lineOfHit data k).2.1 (lineOfHit data k).2.2) := by
  have hk := lineHit_lt endian data k h
  obtain ⟨_, h | h⟩ := h
  · obtain ⟨hp, he, h1, hb⟩ := h
    have hs : slice data 0 (k - 1) = some (data.take (k - 1)) := slice_zero data _ (by omega)
    simp [switchParity, lineOfHit, hp, he, h1, hb, hs, dropCRBE_eq]
  · obtain ⟨hp, he, h1, hb⟩ := h
    have hs : slice data 0 k = some (data.take k) := slice_zero data _ (by omega)
    have hp1 : ¬ (k % 2 = 1) := by omega
    simp [switchParity, lineOfHit, hp, he, h1, hb, hs, dropCRLE_eq]

theorem switchParity_miss (endian : Endian) (data : List Nat) (k : Nat)
    (h0 : data[k]? = some 0x0A) (h : ¬ lineHit endian data k) :
    switchParity data endian k = some (SwitchOutcome.next k) ∨
      (switchParity data endian k = some (SwitchOutcome.next (k + 1)) ∧
        k % 2 = 0 ∧ k + 1 < data.length) := by
  have hk : k < data.length := by
    by_contra hc
    rw [List.getElem?_eq_none (by omega)] at h0
    simp at h0
  unfold switchParity
  by_cases hp : k % 2 = 1
  · simp only [hp, if_true]
    by_cases he : endian ≠ littleEndian
    · rw [if_pos he]
      by_cases h1 : k > 1
      · simp only [h1, if_true]
        have hlt : k - 1 < data.length := by omega
        rw [List.getElem?_eq_getElem hlt]
        by_cases hb : data[k - 1] = 0x00
        · exfalso
          apply h
          refine ⟨h0, Or.inl ⟨hp, he, h1, ?_⟩⟩
          rw [List.getElem?_eq_getElem hlt, hb]
        · left
          simp [hb]
      · left
        simp [h1]
    · left
      simp [he]
  · simp only [hp, if_false]
    by_cases he : endian ≠ bigEndian
    · rw [if_pos he]
      by_cases h1 : k + 1 < data.length
      · rw [if_pos h1]
        rw [List.getElem?_eq_getElem h1]
        by_cases hb : data[k + 1] = 0x00
        · exfalso
          apply h
          refine ⟨h0, Or.inr ⟨by omega, he, h1, ?_⟩⟩
          rw [List.getElem?_eq_getElem h1, hb]
        · right
          refine ⟨by simp [hb], by omega, h1⟩
      · left
        simp [h1]
    · left
      simp [he]

theorem getElem?_drop_add (data : List Nat) (i j : Nat) :
    (data.drop i)[j]? = data[i + j]? := by
  simp [List.getElem?_drop]

/-- With no hit at or after `i`, the loop started at `i` ends in its `break`. -/
theorem scanLoop_break (endian : Endian) (data : List Nat) :
    ∀ (fuel i : Nat), i ≤ data.length → data.length < fuel + i →
      (∀ k, i ≤ k → ¬ lineHit endian data k) →
      scanLoop data endian fuel i = some none := by
  intro fuel
  induction fuel with
  | zero => intro i h1 h2; omega
  | succ fuel ih =>
    intro i h1 h2 hno
    unfold scanLoop
    rw [sliceFrom_eq data i h1]
    simp only
    cases hj : IndexByte (data.drop i) 0x0A with
    | none => rfl
    | some j =>
      simp only
      have hd : data[i + j]? = some 0x0A := by
        rw [← getElem?_drop_add]
        exact (IndexByte_some _ _ _ hj).1
      have hlt : i + j < data.length := by
        by_contra hc
        rw [List.getElem?_eq_none (by omega)] at hd
        simp at hd
      rcases switchParity_miss endian data (i + j) hd (hno (i + j) (by omega)) with h | ⟨h, _, h3⟩
      · rw [h]
        simp only
        exact ih (i + j + 1) (by omega) (by omega) (fun k hk => hno k (by omega))
      · rw [h]
        simp only
        exact ih (i + j + 1 + 1) (by omega) (by omega) (fun k hk => hno k (by omega))

/-- With a first hit at `k`, the loop started at or before `k` returns the line of
that hit. -/
theorem scanLoop_hit (endian : Endian) (data : List Nat) (k : Nat)
    (hk : lineHit endian data k) :
    ∀ (fuel i : Nat), i ≤ k → k < fuel + i →
      (∀ m, i ≤ m → m < k → ¬ lineHit endian data m) →
      scanLoop data endian fuel i = some (some (lineOfHit data k)) := by
  have hklt := lineHit_lt endian data k hk
  intro fuel
  induction fuel with
  | zero => intro i h1 h2; omega
  | succ fuel ih =>
    intro i h1 h2 hno
    unfold scanLoop
    rw [sliceFrom_eq data i (by omega)]
    simp only
    cases hj : IndexByte (data.drop i) 0x0A with
    | none =>
      exfalso
      have := IndexByte_none _ _ hj (k - i)
      rw [getElem?_drop_add] at this
      have e : i + (k - i) = k := by omega
      rw [e] at this
      exact this hk.1
    | some j =>
      simp only
      obtain ⟨hd0, hfirst⟩ := IndexByte_some _ _ _ hj
      have hd : data[i + j]? = some 0x0A := by
        rw [← getElem?_drop_add]
        exact hd0
      have hle : i + j ≤ k := by
        by_contra hc
        have := hfirst (k - i) (by omega)
        rw [getElem?_drop_add] at this
        have e : i + (k - i) = k := by omega
        rw [e] at this
        exact this hk.1
      by_cases heq : i + j = k
      · rw [heq, switchParity_hit endian data k hk]
      · have hlt : i + j < k := by omega
        rcases switchParity_miss endian data (i + j) hd (hno (i + j) (by omega) hlt) with h | ⟨h, h2', h3⟩
        · rw [h]
          simp only
          exact ih (i + j + 1) (by omega) (by omega) (fun m hm hm2 => hno m (by omega) hm2)
        · rw [h]
          simp only
          have hne : i + j + 1 ≠ k := by
            intro hc
            obtain ⟨_, hh | hh⟩ := hk
            · obtain ⟨_, _, _, hb⟩ := hh
              have e : k - 1 = i + j := by omega
              rw [e, hd] at hb
              simp at hb
            · omega
          exact ih (i + j + 1 + 1) (by omega) (by omega) (fun m hm hm2 => hno m (by omega) hm2)

/-- Every hit of the code is a terminator pattern of the specification. -/
theorem terminatorAt_of_lineHit (endian : Endian) (data : List Nat) (k : Nat)
    (h : lineHit endian data k) : terminatorAt endian data k := by
  obtain ⟨h0, h | h⟩ := h
  · exact ⟨h0, Or.inl ⟨h.1, h.2.2.2, h.2.1⟩⟩
  · exact ⟨h0, Or.inr ⟨h.1, h.2.2.1, h.2.2.2, h.2.1⟩⟩

/-- A terminator pattern of the specification is a hit of the code, except at
byte position 1. -/
theorem lineHit_of_terminatorAt (endian : Endian) (data : List Nat) (k : Nat)
    (h : terminatorAt endian data k) (hk : k ≠ 1) : lineHit endian data k := by
  obtain ⟨h0, h | h⟩ := h
  · exact ⟨h0, Or.inl ⟨h.1, h.2.2, by omega, h.2.1⟩⟩
  · exact ⟨h0, Or.inr ⟨h.1, h.2.2.2, h.2.1, h.2.2.1⟩⟩

/-- The scanning loop of a call either breaks, with no hit in the buffer, or
returns the line of the first hit; it does not panic and the fuel suffices. -/
theorem scanLoop_total (endian : Endian) (data : List Nat) :
    (scanLoop data endian (data.length + 1) 0 = some none ∧ ∀ k, ¬ lineHit endian data k) ∨
      ∃ k, lineHit endian data k ∧ (∀ m, m < k → ¬ lineHit endian data m) ∧
        scanLoop data endian (data.length + 1) 0 = some (some (lineOfHit data k)) := by
  by_cases h : ∃ k, lineHit endian data k
  · right
    refine ⟨Nat.find h, Nat.find_spec h, fun m hm => Nat.find_min h hm, ?_⟩
    have hlt := lineHit_lt endian data _ (Nat.find_spec h)
    exact scanLoop_hit endian data _ (Nat.find_spec h) _ 0 (by omega) (by omega)
      (fun m _ hm => Nat.find_min h hm)
  · left
    have hno : ∀ k, ¬ lineHit endian data k := fun k hk => h ⟨k, hk⟩
    exact ⟨scanLoop_break endian data _ 0 (by omega) (by omega) (fun k _ => hno k), hno⟩

/-! ## The split function after the mark check -/

theorem scanLines_hit (GOOS : String) (s : Scanner) (data : List Nat) (atEOF : Bool) (k : Nat)
    (hk : lineHit s.endian data k) (hmin : ∀ m, m < k → ¬ lineHit s.endian data m) :
    scanLines GOOS s data atEOF =
      some ({ advance := (lineOfHit data k).1, token := some (lineOfHit data k).2.1, err := none },
        { s with endian := (lineOfHit data k).2.2 }) := by
  have hlt := lineHit_lt s.endian data k hk
  unfold scanLines
  rw [scanLoop_hit s.endian data k hk _ 0 (by omega) (by omega) (fun m _ hm => hmin m hm)]

theorem scanLines_more (GOOS : String) (s : Scanner) (data : List Nat)
    (hno : ∀ k, ¬ lineHit s.endian data k) :
    scanLines GOOS s data false = some ({ advance := 0, token := none, err := none }, s) := by
  unfold scanLines
  rw [scanLoop_break s.endian data _ 0 (by omega) (by omega) (fun k _ => hno k)]
  simp

theorem scanLines_flush_big (GOOS : String) (c : Bool) (data : List Nat)
    (hno : ∀ k, ¬ lineHit bigEndian data k) :
    scanLines GOOS ⟨bigEndian, c⟩ data true =
      some ({ advance := data.length, token := some (withoutTrailing 0x00 0x0D data), err := none },
        ⟨bigEndian, c⟩) := by
  unfold scanLines
  rw [scanLoop_break bigEndian data _ 0 (by omega) (by omega) (fun k _ => hno k)]
  simp [dropCRBE_eq]

theorem scanLines_flush_little (GOOS : String) (c : Bool) (data : List Nat)
    (hno : ∀ k, ¬ lineHit littleEndian data k) :
    scanLines GOOS ⟨littleEndian, c⟩ data true =
      some ({ advance := data.length, token := some (withoutTrailing 0x0D 0x00 data), err := none },
        ⟨littleEndian, c⟩) := by
  unfold scanLines
  rw [scanLoop_break littleEndian data _ 0 (by omega) (by omega) (fun k _ => hno k)]
  simp [dropCRLE_eq]

theorem withoutTrailing_length_ne (t1 t2 : Nat) (data : List Nat) :
    data.length ≠ (withoutTrailing t1 t2 data).length ↔ data.drop (data.length - 2) = [t1, t2] := by
  unfold withoutTrailing
  by_cases h : data.drop (data.length - 2) = [t1, t2]
  · have hl := congrArg List.length h
    simp at hl
    simp [h]
    omega
  · simp [h]

theorem dropCR_eq (data : List Nat) : dropCR data = some (data, crEvidence data) := by
  unfold dropCR crEvidence
  rw [dropCRLE_eq, dropCRBE_eq]
  simp only [withoutTrailing_length_ne]
  by_cases h1 : data.drop (data.length - 2) = [0x0D, 0x00]
  · simp [h1]
  · by_cases h2 : data.drop (data.length - 2) = [0x00, 0x0D]
    · simp [h1, h2]
    · simp [h1, h2]

theorem scanLines_flush_unknown (GOOS : String) (c : Bool) (data : List Nat)
    (hno : ∀ k, ¬ lineHit unknownEndian data k) :
    scanLines GOOS ⟨unknownEndian, c⟩ data true =
      some ({ advance := data.length, token := some data, err := none },
        ⟨if crEvidence data = unknownEndian then
            (if GOOS = "windows" then littleEndian else bigEndian)
          else crEvidence data, c⟩) := by
  unfold scanLines
  rw [scanLoop_break unknownEndian data _ 0 (by omega) (by omega) (fun k _ => hno k)]
  simp [dropCR_eq]

theorem splitFunc_noCheck (GOOS : String) (e : Endian) (data : List Nat) (atEOF : Bool)
    (h : ¬ (atEOF = true ∧ data.length = 0)) :
    splitFunc GOOS ⟨e, false⟩ data atEOF = scanLines GOOS ⟨e, false⟩ data atEOF := by
  unfold splitFunc
  rw [if_neg h]
  simp

theorem splitFunc_check (GOOS : String) (e : Endian) (d0 d1 : Nat) (rest : List Nat)
    (atEOF : Bool) :
    splitFunc GOOS ⟨e, true⟩ (d0 :: d1 :: rest) atEOF =
      if uint16 bom = uint16 (uint16 d0 <<< 8) ||| uint16 d1 then
        some ({ advance := 2, token := none, err := none }, ⟨bigEndian, false⟩)
      else if uint16 bom = uint16 (uint16 d1 <<< 8) ||| uint16 d0 then
        some ({ advance := 2, token := none, err := none }, ⟨littleEndian, false⟩)
      else scanLines GOOS ⟨e, false⟩ (d0 :: d1 :: rest) atEOF := by
  unfold splitFunc
  simp

theorem splitFunc_mark_or_scan (GOOS : String) (s : Scanner) (data : List Nat) (atEOF : Bool)
    (h : ¬ (atEOF = true ∧ data.length = 0)) :
    (markReturns s data ∧
        ∃ e, splitFunc GOOS s data atEOF =
          some ({ advance := 2, token := none, err := none }, ⟨e, false⟩)) ∨
      (¬ markReturns s data ∧
        splitFunc GOOS s data atEOF = scanLines GOOS ⟨s.endian, false⟩ data atEOF) := by
  obtain ⟨e, c⟩ := s
  cases c with
  | false =>
    right
    exact ⟨by simp [markReturns], splitFunc_noCheck GOOS e data atEOF h⟩
  | true =>
    match data with
    | [] =>
      right
      refine ⟨by simp [markReturns], ?_⟩
      unfold splitFunc
      rw [if_neg h]
      simp
    | [d0] =>
      right
      refine ⟨by simp [markReturns], ?_⟩
      unfold splitFunc
      rw [if_neg h]
      simp
    | d0 :: d1 :: rest =>
      rw [splitFunc_check]
      by_cases h1 : uint16 bom = uint16 (uint16 d0 <<< 8) ||| uint16 d1
      · left
        exact ⟨⟨rfl, Or.inl h1⟩, bigEndian, by rw [if_pos h1]⟩
      · by_cases h2 : uint16 bom = uint16 (uint16 d1 <<< 8) ||| uint16 d0
        · left
          exact ⟨⟨rfl, Or.inr h2⟩, littleEndian, by rw [if_neg h1, if_pos h2]⟩
        · right
          refine ⟨?_, by rw [if_neg h1, if_neg h2]⟩
          rintro ⟨_, h3 | h3⟩
          · exact h1 h3
          · exact h2 h3

/-- At end of stream the part after the mark check consumes a non-empty buffer,
or a part of it, and never asks for more. -/
theorem scanLines_eof_advance (GOOS : String) (s : Scanner) (data : List Nat) (h : data ≠ []) :
    ∃ r s1, scanLines GOOS s data true = some (r, s1) ∧ 0 < r.advance := by
  have hpos : 0 < data.length := List.length_pos.mpr h
  rcases scanLoop_total s.endian data with ⟨_, hno⟩ | ⟨k, hk, hmin, _⟩
  · obtain ⟨e, c⟩ := s
    cases e with
    | unknownEndian => exact ⟨_, _, scanLines_flush_unknown GOOS c data hno, hpos⟩
    | bigEndian => exact ⟨_, _, scanLines_flush_big GOOS c data hno, hpos⟩
    | littleEndian => exact ⟨_, _, scanLines_flush_little GOOS c data hno, hpos⟩
  · refine ⟨_, _, scanLines_hit GOOS s data true k hk hmin, ?_⟩
    simp only [lineOfHit]
    split <;> simp

/-! ## The decoder -/

theorem take_set_self (l : List Nat) (k v : Nat) : (l.set k v).take k = l.take k := by
  induction l generalizing k with
  | nil => simp
  | cons x xs ih =>
    cases k with
    | zero => simp
    | succ k => simp [ih]

theorem Uint16_pair (X : ByteOrder) (a b : Nat) (rest : List Nat) :
    ByteOrder.Uint16 (some X) (a :: b :: rest) = some (wordOf X a b) := by
  cases X <;> simp [ByteOrder.Uint16, wordOf]

theorem unitsOf_length (X : ByteOrder) : ∀ (n : Nat) (b : List Nat), b.length = n →
    (unitsOf X b).length = n / 2 := by
  intro n
  induction n using Nat.strong_induction_on with
  | _ n ih =>
    intro b hb
    match b with
    | [] => simp at hb; subst hb; simp [unitsOf]
    | [_] => simp at hb; subst hb; simp [unitsOf]
    | a :: c :: rest =>
      simp only [List.length_cons] at hb
      simp only [unitsOf, List.length_cons]
      rw [ih (n - 2) (by omega) rest (by omega)]
      omega

theorem unitsOf_short (X : ByteOrder) (b : List Nat) (h : b.length ≤ 1) : unitsOf X b = [] := by
  match b with
  | [] => rfl
  | [_] => rfl
  | _ :: _ :: _ => simp at h

/-- The loop of the decoder writes the code units of the byte pairs from position
`2 * k` on into the entries `k` to `len(b)/2` of `utf`, and leaves the others. -/
theorem decodeLoop_spec (b : List Nat) (X : ByteOrder) :
    ∀ (fuel k : Nat) (utf : List Nat), utf.length = (b.length + 1) / 2 → 2 * k ≤ b.length →
      b.length / 2 - k < fuel →
      decodeLoop b (some X) fuel (2 * k) utf =
        some (utf.take k ++ unitsOf X (b.drop (2 * k)) ++ utf.drop (b.length / 2)) := by
  intro fuel
  induction fuel with
  | zero => intro k utf _ _ h; omega
  | succ fuel ih =>
    intro k utf hutf hk hfuel
    unfold decodeLoop
    by_cases hc : 2 * k + (2 - 1) < b.length
    · rw [if_pos hc, sliceFrom_eq b (2 * k) hk]
      have h0 : 2 * k < b.length := by omega
      have h1 : 2 * k + 1 < b.length := by omega
      have e1 : 2 * k + 1 + 1 = 2 * (k + 1) := by omega
      have e2 : 2 * k + 2 = 2 * (k + 1) := by omega
      have hdrop : b.drop (2 * k) = b[2 * k] :: b[2 * k + 1] :: b.drop (2 * (k + 1)) := by
        rw [List.drop_eq_getElem_cons h0, List.drop_eq_getElem_cons h1, e1]
      have hklt : k < utf.length := by omega
      have hdiv : 2 * k / 2 = k := by omega
      simp only [hdrop, Uint16_pair, hdiv, hklt, if_true]
      rw [e2, ih (k + 1) _ (by simpa using hutf) (by omega) (by omega)]
      simp only [unitsOf]
      have ht : (utf.set k (wordOf X b[2 * k] b[2 * k + 1])).take (k + 1) =
          utf.take k ++ [wordOf X b[2 * k] b[2 * k + 1]] := by
        rw [List.take_succ, take_set_self]
        simp [hklt]
      have hd : (utf.set k (wordOf X b[2 * k] b[2 * k + 1])).drop (b.length / 2) =
          utf.drop (b.length / 2) := by
        rw [List.drop_set_of_lt _ _ (by omega)]
      rw [ht, hd]
      simp
    · rw [if_neg hc]
      have hk2 : b.length / 2 = k := by omega
      rw [unitsOf_short X _ (by simp; omega), hk2]
      simp

theorem word_eq (a b : Nat) (ha : a < 256) (hb : b < 256) :
    uint16 (uint16 a <<< 8) ||| uint16 b = a * 256 + b := by
  unfold uint16
  rw [Nat.mod_eq_of_lt (by omega : a < 65536), Nat.mod_eq_of_lt (by omega : b < 65536),
    Nat.shiftLeft_eq]
  have h8 : (2 : Nat) ^ 8 = 256 := by norm_num
  rw [h8, Nat.mod_eq_of_lt (by omega : a * 256 < 65536)]
  have := Nat.mul_add_lt_is_or (i := 8) (b := b) (by omega) a
  rw [h8, Nat.mul_comm] at this
  rw [← this]

/-- What the decoder returns for a non-nil order: the decoded code units of the
byte pairs, followed by U+FFFD when the length is odd. -/
theorem UTF16BytesToString_eq (b : List Nat) (X : ByteOrder) :
    UTF16BytesToString b (some X) =
      some (stringOfRunes (utf16Decode
        (unitsOf X b ++ (if b.length % 2 = 1 then [0xFFFD] else [])))) := by
  unfold UTF16BytesToString
  have h := decodeLoop_spec b X (b.length + 1) 0 (List.replicate ((b.length + (2 - 1)) / 2) 0)
    (by simp) (by omega) (by omega)
  simp only [Nat.mul_zero, List.take_zero, List.nil_append, List.drop_zero] at h
  simp only [h]
  have hlen := unitsOf_length X b.length b rfl
  by_cases hodd : b.length % 2 = 1
  · have hn : (b.length + (2 - 1)) / 2 - b.length / 2 = 1 := by omega
    have hlt : b.length / 2 <
        (unitsOf X b ++ List.drop (b.length / 2)
          (List.replicate ((b.length + (2 - 1)) / 2) 0)).length := by
      simp [hlen]
      omega
    rw [if_pos hlt, if_pos hodd]
    simp only [List.drop_replicate, hn, List.length_append, List.length_replicate, hlen]
    have hidx : b.length / 2 + 1 - 1 = (unitsOf X b).length := by omega
    rw [hidx, List.set_append_right _ _ (Nat.le_refl _)]
    simp
  · have hn : (b.length + (2 - 1)) / 2 - b.length / 2 = 0 := by omega
    have hlt : ¬ b.length / 2 <
        (unitsOf X b ++ List.drop (b.length / 2)
          (List.replicate ((b.length + (2 - 1)) / 2) 0)).length := by
      simp [hlen]
      omega
    rw [if_neg hlt, if_neg hodd]
    simp [List.drop_replicate, hn]

/-! ## The byte encoding of code units -/

theorem encodeUnits_cons (X : ByteOrder) (x : Nat) (u : List Nat) :
    encodeUnits X (x :: u) = unitBytes X x ++ encodeUnits X u := by
  simp [encodeUnits]

theorem encodeUnits_append (X : ByteOrder) (u v : List Nat) :
    encodeUnits X (u ++ v) = encodeUnits X u ++ encodeUnits X v := by
  simp [encodeUnits]

theorem unitBytes_length (X : ByteOrder) (x : Nat) : (unitBytes X x).length = 2 := by
  cases X <;> rfl

theorem encodeUnits_length (X : ByteOrder) (u : List Nat) :
    (encodeUnits X u).length = 2 * u.length := by
  induction u with
  | nil => rfl
  | cons x u ih =>
    rw [encodeUnits_cons, List.length_append, unitBytes_length, ih, List.length_cons]
    omega

theorem unitsOf_encodeUnits (X : ByteOrder) (u : List Nat) (hu : ∀ x ∈ u, x < 65536) :
    unitsOf X (encodeUnits X u) = u := by
  induction u with
  | nil => rfl
  | cons x u ih =>
    have hx : x < 65536 := hu x (by simp)
    have ih1 := ih (fun y hy => hu y (by simp [hy]))
    rw [encodeUnits_cons]
    cases X with
    | BigEndian =>
      simp only [unitBytes, List.cons_append, List.nil_append, unitsOf, wordOf, ih1]
      rw [Nat.or_comm, word_eq _ _ (by omega) (by omega)]
      congr 1
      omega
    | LittleEndian =>
      simp only [unitBytes, List.cons_append, List.nil_append, unitsOf, wordOf, ih1]
      rw [Nat.or_comm, word_eq _ _ (by omega) (by omega)]
      congr 1
      omega

/-- The bytes at the positions `2 * j` and `2 * j + 1` of an encoding are the
byte pair of the code unit `j`. -/
theorem encodeUnits_pair (X : ByteOrder) (w : List Nat) (j : Nat) (h : j < w.length) :
    ∃ a b, unitBytes X w[j] = [a, b] ∧ (encodeUnits X w)[2 * j]? = some a ∧
      (encodeUnits X w)[2 * j + 1]? = some b := by
  induction w generalizing j with
  | nil => simp at h
  | cons x w ih =>
    rw [encodeUnits_cons]
    cases j with
    | zero => cases X <;> simp [unitBytes]
    | succ j =>
      obtain ⟨a, b, h1, h2, h3⟩ := ih j (by simpa using h)
      refine ⟨a, b, by simpa using h1, ?_, ?_⟩
      · rw [List.getElem?_append_right (by rw [unitBytes_length]; omega), unitBytes_length]
        have e : 2 * (j + 1) - 2 = 2 * j := by omega
        rw [e]
        exact h2
      · rw [List.getElem?_append_right (by rw [unitBytes_length]; omega), unitBytes_length]
        have e : 2 * (j + 1) + 1 - 2 = 2 * j + 1 := by omega
        rw [e]
        exact h3

theorem encodeUnits_pair_of_get (X : ByteOrder) (w : List Nat) (j x : Nat)
    (hx : w[j]? = some x) :
    ∃ a b, unitBytes X x = [a, b] ∧ (encodeUnits X w)[2 * j]? = some a ∧
      (encodeUnits X w)[2 * j + 1]? = some b := by
  obtain ⟨h, rfl⟩ := List.getElem?_eq_some.mp hx
  exact encodeUnits_pair X w j h

theorem crlf_get (u : List Nat) (j x : Nat) (hx : (u ++ [0x000D, 0x000A])[j]? = some x) :
    (j < u.length ∧ x ∈ u) ∨ (j = u.length ∧ x = 0x000D) ∨ (j = u.length + 1 ∧ x = 0x000A) := by
  by_cases hj : j < u.length
  · left
    rw [List.getElem?_append_left hj] at hx
    exact ⟨hj, List.mem_iff_getElem?.mpr ⟨j, hx⟩⟩
  · right
    rw [List.getElem?_append_right (by omega)] at hx
    by_cases h0 : j - u.length = 0
    · left
      rw [h0] at hx
      simp at hx
      exact ⟨by omega, hx.symm⟩
    · right
      by_cases h1 : j - u.length = 1
      · rw [h1] at hx
        simp at hx
        exact ⟨by omega, hx.symm⟩
      · exfalso
        rw [List.getElem?_eq_none (by simp; omega)] at hx
        simp at hx

/-- In the encoding of `u` followed by carriage return and newline, where `u`
holds neither 0x000A nor 0x0A00, the only hit of the scanning loop is the newline
of the terminator. -/
theorem crlf_hit_unique (X : ByteOrder) (u : List Nat) (hu : ∀ x ∈ u, x < 65536)
    (hnl : ∀ x ∈ u, x ≠ 0x000A ∧ x ≠ 0x0A00) (m : Nat)
    (h : lineHit unknownEndian (encodeUnits X (u ++ [0x000D, 0x000A])) m) :
    m = newlinePos X u := by
  have hlt := lineHit_lt _ _ _ h
  rw [encodeUnits_length] at hlt
  have hj : m / 2 < (u ++ [0x000D, 0x000A]).length := by omega
  obtain ⟨a, b, hab, ha, hb⟩ :=
    encodeUnits_pair_of_get X _ (m / 2) _ (List.getElem?_eq_getElem hj)
  have hcases := crlf_get u (m / 2) _ (List.getElem?_eq_getElem hj)
  generalize (u ++ [0x000D, 0x000A])[m / 2] = x at hab hcases
  obtain ⟨h0, hh | hh⟩ := h
  · obtain ⟨hodd, _, _, hprev⟩ := hh
    have e1 : 2 * (m / 2) + 1 = m := by omega
    have e0 : 2 * (m / 2) = m - 1 := by omega
    rw [e1, h0] at hb
    rw [e0, hprev] at ha
    simp only [Option.some.injEq] at ha hb
    subst ha hb
    rcases hcases with ⟨_, hx⟩ | ⟨_, hx⟩ | ⟨hm, hx⟩
    · have hx1 := hu x hx
      have hx2 := hnl x hx
      cases X <;> simp [unitBytes] at hab <;> omega
    · subst hx
      cases X <;> simp [unitBytes] at hab
    · subst hx
      cases X
      · simp only [newlinePos]
        omega
      · simp [unitBytes] at hab
  · obtain ⟨heven, _, _, hnext⟩ := hh
    have e1 : 2 * (m / 2) + 1 = m + 1 := by omega
    have e0 : 2 * (m / 2) = m := by omega
    rw [e1, hnext] at hb
    rw [e0, h0] at ha
    simp only [Option.some.injEq] at ha hb
    subst ha hb
    rcases hcases with ⟨_, hx⟩ | ⟨_, hx⟩ | ⟨hm, hx⟩
    · have hx1 := hu x hx
      have hx2 := hnl x hx
      cases X <;> simp [unitBytes] at hab <;> omega
    · subst hx
      cases X <;> simp [unitBytes] at hab
    · subst hx
      cases X
      · simp [unitBytes] at hab
      · simp only [newlinePos]
        omega

theorem crlf_hit (X : ByteOrder) (u : List Nat) :
    lineHit unknownEndian (encodeUnits X (u ++ [0x000D, 0x000A])) (newlinePos X u) := by
  have hj : u.length + 1 < (u ++ [0x000D, 0x000A]).length := by simp
  have hx : (u ++ [0x000D, 0x000A])[u.length + 1]? = some 0x000A := by
    rw [List.getElem?_append_right (by omega)]
    simp
  obtain ⟨a, b, hab, ha, hb⟩ := encodeUnits_pair_of_get X _ (u.length + 1) _ hx
  cases X with
  | BigEndian =>
    simp [unitBytes] at hab
    obtain ⟨rfl, rfl⟩ := hab
    refine ⟨?_, Or.inl ⟨?_, by decide, ?_, ?_⟩⟩
    · simpa [newlinePos, Nat.mul_add] using hb
    · simp only [newlinePos]; omega
    · simp only [newlinePos]; omega
    · simpa [newlinePos, Nat.mul_add] using ha
  | LittleEndian =>
    simp [unitBytes] at hab
    obtain ⟨rfl, rfl⟩ := hab
    refine ⟨?_, Or.inr ⟨?_, by decide, ?_, ?_⟩⟩
    · simpa [newlinePos, Nat.mul_add] using ha
    · simp only [newlinePos]; omega
    · rw [encodeUnits_length]
      simp [newlinePos]
      omega
    · simpa [newlinePos, Nat.mul_add] using hb

theorem withoutTrailing_append (a b : Nat) (l : List Nat) :
    withoutTrailing a b (l ++ [a, b]) = l := by
  unfold withoutTrailing
  simp

theorem crlf_lineOfHit (X : ByteOrder) (u : List Nat) :
    lineOfHit (encodeUnits X (u ++ [0x000D, 0x000A])) (newlinePos X u) =
      ((encodeUnits X (u ++ [0x000D, 0x000A])).length, encodeUnits X u, endianOf X) := by
  have hl := encodeUnits_length X u
  cases X with
  | BigEndian =>
    have hp : (2 * u.length + 3) % 2 = 1 := by omega
    have ht : (encodeUnits ByteOrder.BigEndian (u ++ [0x000D, 0x000A])).take (2 * u.length + 3 - 1) =
        encodeUnits ByteOrder.BigEndian u ++ [0x00, 0x0D] := by
      rw [encodeUnits_append, List.take_append_eq_append_take, hl]
      have e : 2 * u.length + 3 - 1 - 2 * u.length = 2 := by omega
      rw [e, List.take_of_length_le (by omega)]
      rfl
    simp only [lineOfHit, newlinePos, hp, if_true, ht, withoutTrailing_append, endianOf]
    rw [encodeUnits_length]
    simp
    omega
  | LittleEndian =>
    have hp : ¬ ((2 * u.length + 2) % 2 = 1) := by omega
    have ht : (encodeUnits ByteOrder.LittleEndian (u ++ [0x000D, 0x000A])).take (2 * u.length + 2) =
        encodeUnits ByteOrder.LittleEndian u ++ [0x0D, 0x00] := by
      rw [encodeUnits_append, List.take_append_eq_append_take, hl]
      have e : 2 * u.length + 2 - 2 * u.length = 2 := by omega
      rw [e, List.take_of_length_le (by omega)]
      rfl
    simp only [lineOfHit, newlinePos, hp, if_false, ht, withoutTrailing_append, endianOf]
    rw [encodeUnits_length]
    simp
    omega

theorem crlf_no_mark (X : ByteOrder) (u : List Nat) (hu : ∀ x ∈ u, x < 65536)
    (hmark : u.head? ≠ some 0xFEFF ∧ u.head? ≠ some 0xFFFE) (c : Bool) :
    ¬ markReturns ⟨unknownEndian, c⟩ (encodeUnits X (u ++ [0x000D, 0x000A])) := by
  have hb : uint16 bom = 0xFEFF := by decide
  cases u with
  | nil => cases c <;> cases X <;> decide
  | cons x u1 =>
    have hx : x < 65536 := hu x (by simp)
    have h1 : x ≠ 0xFEFF := by simpa using hmark.1
    have h2 : x ≠ 0xFFFE := by simpa using hmark.2
    rintro ⟨_, hm⟩
    cases X with
    | BigEndian =>
      simp only [List.cons_append, encodeUnits_cons, unitBytes] at hm
      rw [word_eq _ _ (by omega) (by omega), word_eq _ _ (by omega) (by omega), hb] at hm
      omega
    | LittleEndian =>
      simp only [List.cons_append, encodeUnits_cons, unitBytes] at hm
      rw [word_eq _ _ (by omega) (by omega), word_eq _ _ (by omega) (by omega), hb] at hm
      omega

/-- With the mark check done, if the smallest terminator pattern consistent with
the current order is at an odd byte position `i` other than 1, the split function
returns advance `i+1`, the token `data[0:i-1]` with one trailing `00 0D` pair
removed if present, and sets the order to Big. -/
theorem line_at_odd_terminator_above_one (GOOS : String) (e : Endian) (data : List Nat)
    (atEOF : Bool) (i : Nat) (hi : terminatorAt e data i)
    (hmin : ∀ k, k < i → ¬ terminatorAt e data k) (hodd : i % 2 = 1) (h1 : i ≠ 1) :
    splitFunc GOOS ⟨e, false⟩ data atEOF =
      some ({ advance := i + 1, token := some (withoutTrailing 0x00 0x0D (data.take (i - 1))),
              err := none }, ⟨bigEndian, false⟩) := by
  have hhit : lineHit e data i := lineHit_of_terminatorAt e data i hi h1
  have hlt := lineHit_lt e data i hhit
  rw [splitFunc_noCheck GOOS e data atEOF (by omega)]
  rw [scanLines_hit GOOS ⟨e, false⟩ data atEOF i hhit
    (fun m hm hc => hmin m hm (terminatorAt_of_lineHit e data m hc))]
  simp [lineOfHit, hodd]

/-- The split function returns on every input: no index or slice is out of range
and the fuel of the scanning loop suffices. -/
theorem splitFunc_returns (GOOS : String) (s : Scanner) (data : List Nat) (atEOF : Bool) :
    ∃ r s1, splitFunc GOOS s data atEOF = some (r, s1) := by
  by_cases h : atEOF = true ∧ data.length = 0
  · exact ⟨_, _, by unfold splitFunc; rw [if_pos h]⟩
  · rcases splitFunc_mark_or_scan GOOS s data atEOF h with ⟨_, e, he⟩ | ⟨_, heq⟩
    · exact ⟨_, _, he⟩
    · rw [heq]
      cases atEOF with
      | true =>
        have hd : data ≠ [] := by
          intro hc
          apply h
          simp [hc]
        obtain ⟨r, s1, hr, _⟩ := scanLines_eof_advance GOOS ⟨s.endian, false⟩ data hd
        exact ⟨r, s1, hr⟩
      | false =>
        rcases scanLoop_total s.endian data with ⟨_, hno⟩ | ⟨k, hk, hmin, _⟩
        · exact ⟨_, _, scanLines_more GOOS ⟨s.endian, false⟩ data hno⟩
        · exact ⟨_, _, scanLines_hit GOOS ⟨s.endian, false⟩ data false k hk hmin⟩

/-! ## The claims -/

/-- C1: for a scanner built with no byte order supplied and every buffer that
begins with the bytes FE FF (resp. FF FE), the first call of the split function,
with either end-of-stream flag, returns advance 2, no token and no error, and the
order accessor then returns Big (resp. Little). -/
theorem mark_consumed_by_first_call (GOOS : String) (rest : List Nat) (atEOF : Bool) :
    (splitFunc GOOS (ScanUTF16LinesFunc none) (0xFE :: 0xFF :: rest) atEOF =
        some ({ advance := 2, token := none, err := none }, ⟨bigEndian, false⟩) ∧
      orderFunc ⟨bigEndian, false⟩ = some ByteOrder.BigEndian) ∧
    (splitFunc GOOS (ScanUTF16LinesFunc none) (0xFF :: 0xFE :: rest) atEOF =
        some ({ advance := 2, token := none, err := none }, ⟨littleEndian, false⟩) ∧
      orderFunc ⟨littleEndian, false⟩ = some ByteOrder.LittleEndian) := by
  have hs : ScanUTF16LinesFunc none = ⟨unknownEndian, true⟩ := rfl
  refine ⟨⟨?_, rfl⟩, ⟨?_, rfl⟩⟩
  · rw [hs, splitFunc_check, if_pos (by decide)]
  · rw [hs, splitFunc_check, if_neg (by decide), if_pos (by decide)]

/-- C2: for code units `u` with neither 0x000A nor 0x0A00 and not starting with
0xFEFF or 0xFFFE, and each order `X`: a scanner built with no byte order supplied,
called once on the encoding in order `X` of `u` followed by 0x000D, 0x000A,
returns the whole buffer length as advance and the encoding of `u` as token, and
resolves the order to `X`; `UTF16BytesToString` of that token in order `X` is the
UTF-16 decoding of `u`; and the following call on the empty remainder at end of
stream returns no token. -/
theorem crlf_line_round_trip (GOOS : String) (X : ByteOrder) (u : List Nat) (atEOF : Bool)
    (hu : ∀ x ∈ u, x < 65536) (hnl : ∀ x ∈ u, x ≠ 0x000A ∧ x ≠ 0x0A00)
    (hmark : u.head? ≠ some 0xFEFF ∧ u.head? ≠ some 0xFFFE) :
    splitFunc GOOS (ScanUTF16LinesFunc none) (encodeUnits X (u ++ [0x000D, 0x000A])) atEOF =
        some ({ advance := (encodeUnits X (u ++ [0x000D, 0x000A])).length,
                token := some (encodeUnits X u), err := none }, ⟨endianOf X, false⟩) ∧
      orderFunc ⟨endianOf X, false⟩ = some X ∧
      UTF16BytesToString (encodeUnits X u) (some X) = some (stringOfRunes (utf16Decode u)) ∧
      splitFunc GOOS ⟨endianOf X, false⟩
          ((encodeUnits X (u ++ [0x000D, 0x000A])).drop
            (encodeUnits X (u ++ [0x000D, 0x000A])).length) true =
        some ({ advance := 0, token := none, err := none }, ⟨endianOf X, false⟩) := by
  refine ⟨?_, ?_, ?_, ?_⟩
  · have hs : ScanUTF16LinesFunc none = ⟨unknownEndian, true⟩ := rfl
    have hlen : ¬ (atEOF = true ∧ (encodeUnits X (u ++ [0x000D, 0x000A])).length = 0) := by
      rw [encodeUnits_length]
      simp
    rcases splitFunc_mark_or_scan GOOS ⟨unknownEndian, true⟩ _ atEOF hlen with ⟨hm, _⟩ | ⟨_, heq⟩
    · exact absurd hm (crlf_no_mark X u hu hmark true)
    · rw [hs, heq]
      rw [scanLines_hit GOOS ⟨unknownEndian, false⟩ _ atEOF (newlinePos X u) (crlf_hit X u)
        (fun m hm hc => by
          have := crlf_hit_unique X u hu hnl m hc
          omega)]
      rw [crlf_lineOfHit]
  · cases X <;> rfl
  · rw [UTF16BytesToString_eq, unitsOf_encodeUnits X u hu, encodeUnits_length]
    have : ¬ (2 * u.length % 2 = 1) := by omega
    simp [this]
  · simp [splitFunc]

theorem crlf_line_round_trip_witness :
    (splitFunc "linux" (ScanUTF16LinesFunc none) [0x00, 0x41, 0x00, 0x0D, 0x00, 0x0A] false =
        some ({ advance := 6, token := some [0x00, 0x41], err := none }, ⟨bigEndian, false⟩) ∧
      UTF16BytesToString [0x00, 0x41] (some ByteOrder.BigEndian) = some [0x41]) ∧
    (splitFunc "linux" (ScanUTF16LinesFunc none) [0x41, 0x00, 0x0D, 0x00, 0x0A, 0x00] false =
        some ({ advance := 6, token := some [0x41, 0x00], err := none }, ⟨littleEndian, false⟩) ∧
      UTF16BytesToString [0x41, 0x00] (some ByteOrder.LittleEndian) = some [0x41]) :=
  ⟨⟨(crlf_line_round_trip "linux" ByteOrder.BigEndian [0x0041] false
        (by decide) (by decide) (by decide)).1,
      (crlf_line_round_trip "linux" ByteOrder.BigEndian [0x0041] false
        (by decide) (by decide) (by decide)).2.2.1⟩,
    ⟨(crlf_line_round_trip "linux" ByteOrder.LittleEndian [0x0041] false
        (by decide) (by decide) (by decide)).1,
      (crlf_line_round_trip "linux" ByteOrder.LittleEndian [0x0041] false
        (by decide) (by decide) (by decide)).2.2.1⟩⟩

/-- C3: with the mark check done, if the smallest terminator pattern consistent
with the current order is at an even byte position `i`, the split function returns
advance `i+2`, the token `data[0:i]` with one trailing `0D 00` pair removed if
present, no error, and sets the order to Little. -/
theorem line_at_even_terminator (GOOS : String) (e : Endian) (data : List Nat) (atEOF : Bool)
    (i : Nat) (hi : terminatorAt e data i) (hmin : ∀ k, k < i → ¬ terminatorAt e data k)
    (heven : i % 2 = 0) :
    splitFunc GOOS ⟨e, false⟩ data atEOF =
      some ({ advance := i + 2, token := some (withoutTrailing 0x0D 0x00 (data.take i)),
              err := none }, ⟨littleEndian, false⟩) := by
  have hhit : lineHit e data i := lineHit_of_terminatorAt e data i hi (by omega)
  have hlt := lineHit_lt e data i hhit
  rw [splitFunc_noCheck GOOS e data atEOF (by omega)]
  rw [scanLines_hit GOOS ⟨e, false⟩ data atEOF i hhit
    (fun m hm hc => hmin m hm (terminatorAt_of_lineHit e data m hc))]
  have hp : ¬ (i % 2 = 1) := by omega
  simp [lineOfHit, hp]

theorem line_at_even_terminator_witness :
    terminatorAt unknownEndian [0x41, 0x00, 0x0D, 0x00, 0x0A, 0x00] 4 ∧
      splitFunc "linux" ⟨unknownEndian, false⟩ [0x41, 0x00, 0x0D, 0x00, 0x0A, 0x00] false =
        some ({ advance := 6, token := some [0x41, 0x00], err := none },
          ⟨littleEndian, false⟩) :=
  ⟨by decide,
    line_at_even_terminator "linux" unknownEndian [0x41, 0x00, 0x0D, 0x00, 0x0A, 0x00] false 4
      (by decide) (by decide) (by decide)⟩

/-- C4, the code at the failing input: with the mark check done and the order
unknown, the smallest terminator pattern of the buffer `00 0A 00 41 00 0A` is at
byte position 1, yet the split function does not return the empty first line
(advance 2, empty token); it returns advance 6 and the token `00 0A 00 41`, which
holds the newline unit.  On the buffer `00 0A` alone it asks for more data. -/
theorem leading_big_newline_not_split :
    (terminatorAt unknownEndian [0x00, 0x0A, 0x00, 0x41, 0x00, 0x0A] 1 ∧
      ∀ k, k < 1 → ¬ terminatorAt unknownEndian [0x00, 0x0A, 0x00, 0x41, 0x00, 0x0A] k) ∧
    splitFunc "linux" ⟨unknownEndian, false⟩ [0x00, 0x0A, 0x00, 0x41, 0x00, 0x0A] false =
      some ({ advance := 6, token := some [0x00, 0x0A, 0x00, 0x41], err := none },
        ⟨bigEndian, false⟩) ∧
    splitFunc "linux" ⟨unknownEndian, false⟩ [0x00, 0x0A] false =
      some ({ advance := 0, token := none, err := none }, ⟨unknownEndian, false⟩) := by
  decide

/-- C5, the code at the failing input: the input `FE FF 00 41 00 0A` scanned as
one buffer gives the single line "A", but delivered as the chunks `FE` and
`FF 00 41 00 0A` it gives a single line that begins with U+FEFF (UTF-8 bytes
`EF BB BF`), because the call on the one-byte buffer uses up the mark check. -/
theorem chunked_mark_differs :
    scanChunks "linux" [[0xFE, 0xFF, 0x00, 0x41, 0x00, 0x0A]] =
      some ([[0x41]], some ByteOrder.BigEndian) ∧
    scanChunks "linux" [[0xFE], [0xFF, 0x00, 0x41, 0x00, 0x0A]] =
      some ([[0xEF, 0xBB, 0xBF, 0x41]], some ByteOrder.BigEndian) := by
  decide

/-- C6, the code at the failing input: the first call of a fresh scanner, not at
end of stream, on the one-byte buffer `FE` clears the mark-check flag, and the
following call on `FE FF 00 41 00 0A` does not recognise the mark: it returns
advance 6 and the token `FE FF 00 41`. -/
theorem short_first_buffer_consumes_mark_check :
    splitFunc "linux" (ScanUTF16LinesFunc none) [0xFE] false =
      some ({ advance := 0, token := none, err := none }, ⟨unknownEndian, false⟩) ∧
    splitFunc "linux" ⟨unknownEndian, false⟩ [0xFE, 0xFF, 0x00, 0x41, 0x00, 0x0A] false =
      some ({ advance := 6, token := some [0xFE, 0xFF, 0x00, 0x41], err := none },
        ⟨bigEndian, false⟩) := by
  decide

/-- C7: with the mark check done and the order fixed to `X`, a call at end of
stream on a non-empty buffer with no terminator pattern consistent with `X`
returns advance `len(data)`, as token the buffer with one trailing carriage-return
unit in order `X` removed if present, and no error; the next call, on the empty
remainder at end of stream, returns no token. -/
theorem final_flush_fixed_order (GOOS : String) (X : ByteOrder) (data : List Nat)
    (hne : data ≠ []) (hno : ∀ i, ¬ terminatorAt (endianOf X) data i) :
    splitFunc GOOS ⟨endianOf X, false⟩ data true =
        some ({ advance := data.length,
                token := some (withoutTrailing (crBytes X).1 (crBytes X).2 data),
                err := none }, ⟨endianOf X, false⟩) ∧
      splitFunc GOOS ⟨endianOf X, false⟩ (data.drop data.length) true =
        some ({ advance := 0, token := none, err := none }, ⟨endianOf X, false⟩) := by
  have hpos : 0 < data.length := List.length_pos.mpr hne
  have hnohit : ∀ k, ¬ lineHit (endianOf X) data k :=
    fun k hk => hno k (terminatorAt_of_lineHit _ data k hk)
  constructor
  · rw [splitFunc_noCheck GOOS _ data true (by omega)]
    cases X with
    | BigEndian => exact scanLines_flush_big GOOS false data hnohit
    | LittleEndian => exact scanLines_flush_little GOOS false data hnohit
  · simp [splitFunc]

theorem final_flush_fixed_order_witness :
    ([0x00, 0x41, 0x00, 0x0D] : List Nat) ≠ [] ∧
      splitFunc "linux" ⟨bigEndian, false⟩ [0x00, 0x41, 0x00, 0x0D] true =
        some ({ advance := 4, token := some [0x00, 0x41], err := none }, ⟨bigEndian, false⟩) :=
  ⟨by decide,
    (final_flush_fixed_order "linux" ByteOrder.BigEndian [0x00, 0x41, 0x00, 0x0D]
      (by decide) (by
        intro i
        by_cases h : i < 4
        · revert i
          decide
        · intro hc
          have := hc.1
          rw [List.getElem?_eq_none (by simpa using h)] at this
          simp at this)).1⟩

/-- C8, the code at the failing input: `dropCR` returns its argument untrimmed,
so with the order unknown the end-of-stream call on `41 00 0D 00`, a buffer with no
terminator pattern that ends in `0D 00`, returns the whole buffer as token, the
carriage return included; and so it does on `00 41 00 0D`. -/
theorem final_flush_unknown_keeps_cr :
    (∀ k, k < 4 → ¬ terminatorAt unknownEndian [0x41, 0x00, 0x0D, 0x00] k) ∧
    dropCR [0x41, 0x00, 0x0D, 0x00] = some ([0x41, 0x00, 0x0D, 0x00], littleEndian) ∧
    splitFunc "linux" ⟨unknownEndian, false⟩ [0x41, 0x00, 0x0D, 0x00] true =
      some ({ advance := 4, token := some [0x41, 0x00, 0x0D, 0x00], err := none },
        ⟨littleEndian, false⟩) ∧
    splitFunc "linux" ⟨unknownEndian, false⟩ [0x00, 0x41, 0x00, 0x0D] true =
      some ({ advance := 4, token := some [0x00, 0x41, 0x00, 0x0D], err := none },
        ⟨bigEndian, false⟩) := by
  decide

/-- C9: with the order unknown, an end-of-stream call that reaches the final
flush on a non-empty buffer leaves the order Little if the buffer ends in `0D 00`,
Big if it ends in `00 0D`, and otherwise the platform default (Little when `GOOS`
is windows, Big otherwise); the order is not left unknown. -/
theorem final_flush_resolves_order (GOOS : String) (s : Scanner) (data : List Nat)
    (hs : s.endian = unknownEndian) (hf : reachesFinalFlush s data) :
    ∃ r s1, splitFunc GOOS s data true = some (r, s1) ∧
      s1.endian =
        (if data.drop (data.length - 2) = [0x0D, 0x00] then littleEndian
          else if data.drop (data.length - 2) = [0x00, 0x0D] then bigEndian
          else if GOOS = "windows" then littleEndian else bigEndian) ∧
      s1.endian ≠ unknownEndian := by
  obtain ⟨hne, hmark, hloop⟩ := hf
  have hpos : 0 < data.length := List.length_pos.mpr hne
  have hnohit : ∀ k, ¬ lineHit unknownEndian data k := by
    rcases scanLoop_total unknownEndian data with ⟨_, hno⟩ | ⟨k, _, _, hk⟩
    · exact hno
    · rw [hs] at hloop
      rw [hloop] at hk
      simp at hk
  rcases splitFunc_mark_or_scan GOOS s data true (by omega) with ⟨hm, _⟩ | ⟨_, heq⟩
  · exact absurd hm hmark
  · rw [heq, hs, scanLines_flush_unknown GOOS false data hnohit]
    refine ⟨_, _, rfl, ?_, ?_⟩
    · simp only [crEvidence]
      by_cases h1 : data.drop (data.length - 2) = [0x0D, 0x00]
      · simp [h1]
      · by_cases h2 : data.drop (data.length - 2) = [0x00, 0x0D]
        · simp [h1, h2]
        · simp [h1, h2]
    · simp only [crEvidence]
      by_cases h1 : data.drop (data.length - 2) = [0x0D, 0x00]
      · simp [h1]
      · by_cases h2 : data.drop (data.length - 2) = [0x00, 0x0D]
        · simp [h1, h2]
        · by_cases h3 : GOOS = "windows"
          · simp [h1, h2, h3]
          · simp [h1, h2, h3]

theorem final_flush_resolves_order_witness :
    reachesFinalFlush (ScanUTF16LinesFunc none) [0x00, 0x41, 0x00, 0x42] ∧
      ∃ r s1, splitFunc "windows" (ScanUTF16LinesFunc none) [0x00, 0x41, 0x00, 0x42] true =
          some (r, s1) ∧ s1.endian = littleEndian :=
  ⟨by decide,
    match final_flush_resolves_order "windows" (ScanUTF16LinesFunc none)
        [0x00, 0x41, 0x00, 0x42] rfl (by decide) with
    | ⟨r, s1, h, he, _⟩ => ⟨r, s1, h, he.trans (by decide)⟩⟩

/-- C10: a call with the end-of-stream flag set returns advance 0 if and only if
the buffer is empty, and then it returns no token, no error, and leaves the closure
variables (order and mark-check flag) unchanged. -/
theorem eof_call_advances_unless_empty (GOOS : String) (s : Scanner) (data : List Nat) :
    ∃ r s1, splitFunc GOOS s data true = some (r, s1) ∧
      (r.advance = 0 ↔ data = []) ∧
      (data = [] → r.token = none ∧ r.err = none ∧ s1 = s) := by
  by_cases hd : data = []
  · subst hd
    exact ⟨⟨0, none, none⟩, s, by simp [splitFunc], by simp, by simp⟩
  · have hpos : 0 < data.length := List.length_pos.mpr hd
    rcases splitFunc_mark_or_scan GOOS s data true (by omega) with ⟨_, e, he⟩ | ⟨_, heq⟩
    · exact ⟨_, _, he, by simp [hd], fun h => absurd h hd⟩
    · obtain ⟨r, s1, hr, hadv⟩ := scanLines_eof_advance GOOS ⟨s.endian, false⟩ data hd
      refine ⟨r, s1, by rw [heq, hr], ?_, fun h => absurd h hd⟩
      constructor
      · intro h0
        omega
      · intro h
        exact absurd h hd

/-! ## The outcomes of a call -/

theorem withoutTrailing_cases (a b : Nat) (l : List Nat) :
    withoutTrailing a b l = l ∨ withoutTrailing a b l ++ [a, b] = l := by
  unfold withoutTrailing
  by_cases h : l.drop (l.length - 2) = [a, b]
  · right
    rw [if_pos h]
    conv => rhs; rw [← List.take_append_drop (l.length - 2) l, h]
  · left
    rw [if_neg h]

theorem withoutTrailing_initial (a b : Nat) (l : List Nat) : withoutTrailing a b l <+: l := by
  rcases withoutTrailing_cases a b l with h | h
  · rw [h]
  · exact ⟨[a, b], h⟩

theorem withoutTrailing_length_le (a b : Nat) (l : List Nat) :
    (withoutTrailing a b l).length ≤ l.length :=
  (withoutTrailing_initial a b l).length_le

theorem withoutTrailing_length_even (a b : Nat) (l : List Nat) (h : l.length % 2 = 0) :
    (withoutTrailing a b l).length % 2 = 0 := by
  rcases withoutTrailing_cases a b l with h1 | h1
  · rw [h1]; exact h
  · have := congrArg List.length h1
    simp at this
    omega

theorem markReturns_length (s : Scanner) (data : List Nat) (h : markReturns s data) :
    2 ≤ data.length := by
  obtain ⟨_, hm⟩ := h
  match data with
  | [] => simp at hm
  | [_] => simp at hm
  | _ :: _ :: _ => simp

theorem scanLines_flush (GOOS : String) (s : Scanner) (data : List Nat)
    (hno : ∀ k, ¬ lineHit s.endian data k) :
    scanLines GOOS s data true =
      some ({ advance := data.length, token := some (flushToken s.endian data), err := none },
        ⟨flushOrder GOOS s.endian data, s.checkBOM⟩) := by
  obtain ⟨e, c⟩ := s
  cases e with
  | unknownEndian => exact scanLines_flush_unknown GOOS c data hno
  | bigEndian => exact scanLines_flush_big GOOS c data hno
  | littleEndian => exact scanLines_flush_little GOOS c data hno

theorem flushOrder_ne_unknown (GOOS : String) (e : Endian) (data : List Nat) :
    flushOrder GOOS e data ≠ unknownEndian := by
  cases e with
  | bigEndian => simp [flushOrder]
  | littleEndian => simp [flushOrder]
  | unknownEndian =>
    simp only [flushOrder]
    by_cases h : crEvidence data = unknownEndian
    · rw [if_pos h]
      by_cases hg : GOOS = "windows"
      · simp [hg]
      · simp [hg]
    · rw [if_neg h]
      exact h

theorem flushToken_initial (e : Endian) (data : List Nat) : flushToken e data <+: data := by
  cases e with
  | bigEndian => exact withoutTrailing_initial _ _ _
  | littleEndian => exact withoutTrailing_initial _ _ _
  | unknownEndian => exact List.prefix_refl _

/-- The five outcomes of a call of the split function: the early return on an
empty buffer at end of stream; the return of the mark check; the line of the first
hit of the scanning loop; the request for more data; and the final flush. -/
theorem splitFunc_cases (GOOS : String) (s : Scanner) (data : List Nat) (atEOF : Bool) :
    (atEOF = true ∧ data = [] ∧
        splitFunc GOOS s data atEOF = some ({ advance := 0, token := none, err := none }, s)) ∨
    (¬ (atEOF = true ∧ data = []) ∧ markReturns s data ∧
        ∃ e, e ≠ unknownEndian ∧ splitFunc GOOS s data atEOF =
          some ({ advance := 2, token := none, err := none }, ⟨e, false⟩)) ∨
    (¬ (atEOF = true ∧ data = []) ∧ ¬ markReturns s data ∧
        ∃ k, lineHit s.endian data k ∧ (∀ m, m < k → ¬ lineHit s.endian data m) ∧
          splitFunc GOOS s data atEOF =
            some ({ advance := (lineOfHit data k).1, token := some (lineOfHit data k).2.1,
                    err := none }, ⟨(lineOfHit data k).2.2, false⟩)) ∨
    (atEOF = false ∧ ¬ markReturns s data ∧ (∀ k, ¬ lineHit s.endian data k) ∧
        splitFunc GOOS s data atEOF =
          some ({ advance := 0, token := none, err := none }, ⟨s.endian, false⟩)) ∨
    (atEOF = true ∧ data ≠ [] ∧ ¬ markReturns s data ∧ (∀ k, ¬ lineHit s.endian data k) ∧
        splitFunc GOOS s data atEOF =
          some ({ advance := data.length, token := some (flushToken s.endian data),
                  err := none }, ⟨flushOrder GOOS s.endian data, false⟩)) := by
  by_cases h : atEOF = true ∧ data = []
  · left
    obtain ⟨h1, h2⟩ := h
    subst h1 h2
    exact ⟨rfl, rfl, by simp [splitFunc]⟩
  · right
    have h' : ¬ (atEOF = true ∧ data.length = 0) := by
      intro hc
      exact h ⟨hc.1, List.length_eq_zero.mp hc.2⟩
    rcases splitFunc_mark_or_scan GOOS s data atEOF h' with ⟨hm, e, he⟩ | ⟨hm, heq⟩
    · left
      refine ⟨h, hm, e, ?_, he⟩
      -- the order written by the mark check is Big or Little
      intro hc
      subst hc
      obtain ⟨es, c⟩ := s
      obtain ⟨hc1, hm1⟩ := hm
      simp only at hc1
      subst hc1
      match data, hm1 with
      | d0 :: d1 :: rest, hm1 =>
        rw [splitFunc_check] at he
        by_cases c1 : uint16 bom = uint16 (uint16 d0 <<< 8) ||| uint16 d1
        · rw [if_pos c1] at he
          simp at he
        · rcases hm1 with c2 | c2
          · exact c1 c2
          · rw [if_neg c1, if_pos c2] at he
            simp at he
    · right
      rcases scanLoop_total s.endian data with ⟨_, hno⟩ | ⟨k, hk, hmin, _⟩
      · right
        cases atEOF with
        | false =>
          left
          exact ⟨rfl, hm, hno, by rw [heq]; exact scanLines_more GOOS ⟨s.endian, false⟩ data hno⟩
        | true =>
          right
          refine ⟨rfl, fun hc => h ⟨rfl, hc⟩, hm, hno, ?_⟩
          rw [heq]
          exact scanLines_flush GOOS ⟨s.endian, false⟩ data hno
      · left
        refine ⟨h, hm, k, hk, hmin, ?_⟩
        rw [heq]
        exact scanLines_hit GOOS ⟨s.endian, false⟩ data atEOF k hk hmin

/-- The line of a hit: the advance is positive, even and within the buffer, the
token is a prefix of the buffer of even length at most the advance, and the order
assigned is Big or Little. -/
theorem lineOfHit_facts (e : Endian) (data : List Nat) (k : Nat) (h : lineHit e data k) :
    0 < (lineOfHit data k).1 ∧ (lineOfHit data k).1 ≤ data.length ∧
      (lineOfHit data k).1 % 2 = 0 ∧ (lineOfHit data k).2.1 <+: data ∧
      (lineOfHit data k).2.1.length ≤ (lineOfHit data k).1 ∧
      (lineOfHit data k).2.1.length % 2 = 0 ∧ (lineOfHit data k).2.2 ≠ unknownEndian := by
  have hlt := lineHit_lt e data k h
  obtain ⟨_, hh | hh⟩ := h
  · obtain ⟨hodd, _, h1, _⟩ := hh
    have hlen : (data.take (k - 1)).length = k - 1 := by
      rw [List.length_take]
      omega
    have hle := withoutTrailing_length_le 0x00 0x0D (data.take (k - 1))
    have hev := withoutTrailing_length_even 0x00 0x0D (data.take (k - 1)) (by omega)
    simp only [lineOfHit, hodd, if_true]
    refine ⟨by omega, by omega, by omega, ?_, by omega, hev, by simp⟩
    exact List.IsPrefix.trans (withoutTrailing_initial _ _ _) <| List.take_prefix _ _
  · obtain ⟨heven, _, h1, _⟩ := hh
    have hp : ¬ (k % 2 = 1) := by omega
    have hlen : (data.take k).length = k := by
      rw [List.length_take]
      omega
    have hle := withoutTrailing_length_le 0x0D 0x00 (data.take k)
    have hev := withoutTrailing_length_even 0x0D 0x00 (data.take k) (by omega)
    simp only [lineOfHit, hp, if_false]
    refine ⟨by omega, by omega, by omega, ?_, by omega, hev, by simp⟩
    exact List.IsPrefix.trans (withoutTrailing_initial _ _ _) <| List.take_prefix _ _

theorem UTF16BytesToString_returns (t : List Nat) (s : Scanner) (h : s.endian ≠ unknownEndian) :
    orderFunc s ≠ none ∧ UTF16BytesToString t (orderFunc s) ≠ none := by
  obtain ⟨e, c⟩ := s
  cases e with
  | unknownEndian => exact absurd rfl h
  | bigEndian =>
    refine ⟨by simp [orderFunc], ?_⟩
    simp only [orderFunc]
    rw [UTF16BytesToString_eq]
    simp
  | littleEndian =>
    refine ⟨by simp [orderFunc], ?_⟩
    simp only [orderFunc]
    rw [UTF16BytesToString_eq]
    simp

/-! ## The claims, continued -/

/-- C19: every call of the split function returns, and if it returns a non-nil
token then the order afterwards is Big or Little, the order accessor returns a
non-nil byte order, and `UTF16BytesToString` of the token with that order
returns. -/
theorem token_has_resolved_order (GOOS : String) (s : Scanner) (data : List Nat)
    (atEOF : Bool) :
    ∃ r s1, splitFunc GOOS s data atEOF = some (r, s1) ∧
      ∀ t, r.token = some t →
        s1.endian ≠ unknownEndian ∧ orderFunc s1 ≠ none ∧
          UTF16BytesToString t (orderFunc s1) ≠ none := by
  rcases splitFunc_cases GOOS s data atEOF with
    ⟨_, _, h⟩ | ⟨_, _, e, _, h⟩ | ⟨_, _, k, hk, _, h⟩ | ⟨_, _, _, h⟩ | ⟨_, _, _, _, h⟩
  · exact ⟨_, _, h, fun t ht => by simp at ht⟩
  · exact ⟨_, _, h, fun t ht => by simp at ht⟩
  · refine ⟨_, _, h, fun t _ => ?_⟩
    have hne := (lineOfHit_facts s.endian data k hk).2.2.2.2.2.2
    exact ⟨hne, UTF16BytesToString_returns t _ hne⟩
  · exact ⟨_, _, h, fun t ht => by simp at ht⟩
  · refine ⟨_, _, h, fun t _ => ?_⟩
    have hne := flushOrder_ne_unknown GOOS s.endian data
    exact ⟨hne, UTF16BytesToString_returns t _ hne⟩

theorem token_has_resolved_order_witness :
    ∃ r s1, splitFunc "windows" ⟨unknownEndian, false⟩ [0x41] true = some (r, s1) ∧
      r.token = some [0x41] ∧ s1.endian ≠ unknownEndian ∧ orderFunc s1 ≠ none ∧
      UTF16BytesToString [0x41] (orderFunc s1) ≠ none := by
  obtain ⟨r, s1, h, hall⟩ :=
    token_has_resolved_order "windows" ⟨unknownEndian, false⟩ [0x41] true
  have h2 : splitFunc "windows" ⟨unknownEndian, false⟩ [0x41] true =
      some ({ advance := 1, token := some [0x41], err := none }, ⟨littleEndian, false⟩) := by
    decide
  rw [h2] at h
  simp only [Option.some.injEq, Prod.mk.injEq] at h
  obtain ⟨rfl, rfl⟩ := h
  exact ⟨_, _, h2, rfl, hall [0x41] rfl⟩

/-- C20: on every input the split function returns (no index or slice is out of
range), so does `dropCREndian`, the error is nil, the advance is at most
`len(data)`, a token is returned only with a positive advance, and the token is a
prefix of the buffer of length at most the advance. -/
theorem split_result_contract (GOOS : String) (s : Scanner) (data : List Nat) (atEOF : Bool) :
    ∃ r s1, splitFunc GOOS s data atEOF = some (r, s1) ∧
      r.err = none ∧ r.advance ≤ data.length ∧
      (∀ t, r.token = some t → 0 < r.advance ∧ t <+: data ∧ t.length ≤ r.advance) ∧
      ∀ t1 t2, dropCREndian data t1 t2 ≠ none := by
  have hdrop : ∀ t1 t2, dropCREndian data t1 t2 ≠ none := by
    intro t1 t2
    rw [dropCREndian_eq]
    simp
  rcases splitFunc_cases GOOS s data atEOF with
    ⟨_, _, h⟩ | ⟨_, hm, e, _, h⟩ | ⟨_, _, k, hk, _, h⟩ | ⟨_, _, _, h⟩ | ⟨_, hne, _, _, h⟩
  · exact ⟨_, _, h, rfl, by simp, fun t ht => by simp at ht, hdrop⟩
  · exact ⟨_, _, h, rfl, markReturns_length s data hm, fun t ht => by simp at ht, hdrop⟩
  · obtain ⟨h1, h2, _, h4, h5, _, _⟩ := lineOfHit_facts s.endian data k hk
    refine ⟨_, _, h, rfl, h2, fun t ht => ?_, hdrop⟩
    simp only [Option.some.injEq] at ht
    subst ht
    exact ⟨h1, h4, h5⟩
  · exact ⟨_, _, h, rfl, by simp, fun t ht => by simp at ht, hdrop⟩
  · refine ⟨_, _, h, rfl, Nat.le_refl _, fun t ht => ?_, hdrop⟩
    simp only [Option.some.injEq] at ht
    subst ht
    exact ⟨List.length_pos.mpr hne, flushToken_initial _ _, (flushToken_initial _ _).length_le⟩

theorem split_result_contract_witness :
    ∃ r s1, splitFunc "linux" ⟨unknownEndian, false⟩ [0x00, 0x41, 0x00, 0x0D, 0x00, 0x0A, 0x00]
        false = some (r, s1) ∧
      r.token = some [0x00, 0x41] ∧ r.err = none ∧ r.advance ≤ 7 ∧ 0 < r.advance ∧
      [0x00, 0x41] <+: [0x00, 0x41, 0x00, 0x0D, 0x00, 0x0A, 0x00] ∧
      ([0x00, 0x41] : List Nat).length ≤ r.advance := by
  obtain ⟨r, s1, h, herr, hadv, hall, _⟩ :=
    split_result_contract "linux" ⟨unknownEndian, false⟩
      [0x00, 0x41, 0x00, 0x0D, 0x00, 0x0A, 0x00] false
  have h2 : splitFunc "linux" ⟨unknownEndian, false⟩
      [0x00, 0x41, 0x00, 0x0D, 0x00, 0x0A, 0x00] false =
      some ({ advance := 6, token := some [0x00, 0x41], err := none }, ⟨bigEndian, false⟩) := by
    decide
  rw [h2] at h
  simp only [Option.some.injEq, Prod.mk.injEq] at h
  obtain ⟨rfl, rfl⟩ := h
  obtain ⟨h3, h4, h5⟩ := hall [0x00, 0x41] rfl
  exact ⟨_, _, h2, rfl, herr, hadv, h3, h4, h5⟩

/-- C18: a call of the split function that is not a final flush (a mark, a found
line, or a request for more data) returns an even advance, and a token it returns,
which then comes from a found terminator, has even length. -/
theorem advance_even_unless_final_flush (GOOS : String) (s : Scanner) (data : List Nat)
    (atEOF : Bool) (hnf : ¬ (atEOF = true ∧ reachesFinalFlush s data)) :
    ∃ r s1, splitFunc GOOS s data atEOF = some (r, s1) ∧
      r.advance % 2 = 0 ∧ ∀ t, r.token = some t → t.length % 2 = 0 := by
  rcases splitFunc_cases GOOS s data atEOF with
    ⟨_, _, h⟩ | ⟨_, _, e, _, h⟩ | ⟨_, _, k, hk, _, h⟩ | ⟨_, _, _, h⟩ | ⟨he, hne, hm, hno, _⟩
  · exact ⟨_, _, h, rfl, fun t ht => by simp at ht⟩
  · exact ⟨_, _, h, rfl, fun t ht => by simp at ht⟩
  · obtain ⟨_, _, h3, _, _, h6, _⟩ := lineOfHit_facts s.endian data k hk
    refine ⟨_, _, h, h3, fun t ht => ?_⟩
    simp only [Option.some.injEq] at ht
    subst ht
    exact h6
  · exact ⟨_, _, h, rfl, fun t ht => by simp at ht⟩
  · exfalso
    exact hnf ⟨he, hne, hm,
      scanLoop_break s.endian data _ 0 (by omega) (by omega) (fun k _ => hno k)⟩

theorem advance_even_unless_final_flush_witness :
    ¬ (true = true ∧
        reachesFinalFlush ⟨unknownEndian, false⟩ [0x41, 0x00, 0x0D, 0x00, 0x0A, 0x00, 0x42]) ∧
      ∃ r s1, splitFunc "linux" ⟨unknownEndian, false⟩
          [0x41, 0x00, 0x0D, 0x00, 0x0A, 0x00, 0x42] true = some (r, s1) ∧
        r.advance % 2 = 0 ∧ ∀ t, r.token = some t → t.length % 2 = 0 :=
  ⟨by decide,
    advance_even_unless_final_flush "linux" ⟨unknownEndian, false⟩
      [0x41, 0x00, 0x0D, 0x00, 0x0A, 0x00, 0x42] true (by decide)⟩

/-- In every reachable closure state the mark check is pending only while the
order is unknown. -/
theorem reachable_checkBOM (GOOS : String) (s : Scanner) (h : Reachable GOOS s) :
    s.checkBOM = true → s.endian = unknownEndian := by
  induction h with
  | init byteOrder =>
    match byteOrder with
    | none => intro _; rfl
    | some ByteOrder.BigEndian => intro hc; simp [ScanUTF16LinesFunc] at hc
    | some ByteOrder.LittleEndian => intro hc; simp [ScanUTF16LinesFunc] at hc
  | call s data atEOF r s1 _ hcall ih =>
    rcases splitFunc_cases GOOS s data atEOF with
      ⟨_, _, h⟩ | ⟨_, _, e, _, h⟩ | ⟨_, _, k, _, _, h⟩ | ⟨_, _, _, h⟩ | ⟨_, _, _, _, h⟩
    all_goals
      rw [h] at hcall
      simp only [Option.some.injEq, Prod.mk.injEq] at hcall
      obtain ⟨_, hs⟩ := hcall
      subst hs
    · exact ih
    all_goals
      intro hc
      simp at hc

/-- A hit of the scanning loop under a fixed order assigns that same order. -/
theorem lineOfHit_order (X : ByteOrder) (data : List Nat) (k : Nat)
    (h : lineHit (endianOf X) data k) : (lineOfHit data k).2.2 = endianOf X := by
  obtain ⟨_, hh | hh⟩ := h
  · obtain ⟨hodd, he, _, _⟩ := hh
    cases X with
    | BigEndian => simp [lineOfHit, hodd, endianOf]
    | LittleEndian => exact absurd rfl he
  · obtain ⟨heven, he, _, _⟩ := hh
    have hp : ¬ (k % 2 = 1) := by omega
    cases X with
    | BigEndian => exact absurd rfl he
    | LittleEndian => simp [lineOfHit, hp, endianOf]

/-- C11: in a reachable closure state whose order is Big or Little, a call of the
split function on any buffer with either end-of-stream flag returns and leaves the
order as it was, so the order accessor returns the same value after the call. -/
theorem resolved_order_is_kept (GOOS : String) (s : Scanner) (X : ByteOrder)
    (data : List Nat) (atEOF : Bool) (hr : Reachable GOOS s) (hX : s.endian = endianOf X) :
    ∃ r s1, splitFunc GOOS s data atEOF = some (r, s1) ∧
      s1.endian = s.endian ∧ orderFunc s1 = orderFunc s ∧ orderFunc s1 = some X := by
  have hord : ∀ s1 : Scanner, s1.endian = s.endian →
      s1.endian = s.endian ∧ orderFunc s1 = orderFunc s ∧ orderFunc s1 = some X := by
    intro s1 h1
    refine ⟨h1, by simp [orderFunc, h1], ?_⟩
    simp only [orderFunc, h1, hX]
    cases X <;> rfl
  have hcheck : s.checkBOM = false := by
    cases hc : s.checkBOM with
    | false => rfl
    | true =>
      have := reachable_checkBOM GOOS s hr hc
      rw [hX] at this
      cases X <;> simp [endianOf] at this
  rcases splitFunc_cases GOOS s data atEOF with
    ⟨_, _, h⟩ | ⟨_, hm, e, _, h⟩ | ⟨_, _, k, hk, _, h⟩ | ⟨_, _, _, h⟩ | ⟨_, _, _, _, h⟩
  · exact ⟨_, _, h, hord s rfl⟩
  · exfalso
    rw [hm.1] at hcheck
    simp at hcheck
  · refine ⟨_, _, h, hord _ ?_⟩
    rw [hX] at hk
    simp only
    rw [lineOfHit_order X data k hk, hX]
  · exact ⟨_, _, h, hord _ rfl⟩
  · refine ⟨_, _, h, hord _ ?_⟩
    simp only
    rw [hX]
    cases X <;> rfl

theorem resolved_order_is_kept_witness :
    ∃ r s1, splitFunc "linux" (ScanUTF16LinesFunc (some ByteOrder.BigEndian))
        [0x0A, 0x00, 0x00, 0x0D] true = some (r, s1) ∧
      s1.endian = (ScanUTF16LinesFunc (some ByteOrder.BigEndian)).endian ∧
      orderFunc s1 = orderFunc (ScanUTF16LinesFunc (some ByteOrder.BigEndian)) ∧
      orderFunc s1 = some ByteOrder.BigEndian :=
  resolved_order_is_kept "linux" (ScanUTF16LinesFunc (some ByteOrder.BigEndian))
    ByteOrder.BigEndian [0x0A, 0x00, 0x00, 0x0D] true (Reachable.init _) rfl

/-- Outside the reachable states the order can change: with the order Big and the
mark check still pending, the Little mark sets it to Little. -/
theorem order_changes_with_pending_check :
    splitFunc "linux" ⟨bigEndian, true⟩ [0xFF, 0xFE] false =
      some ({ advance := 2, token := none, err := none }, ⟨littleEndian, false⟩) := by
  decide

/-! ## Appended data -/

theorem lineHit_append (en : Endian) (d e : List Nat) (k : Nat) (h : lineHit en d k) :
    lineHit en (d ++ e) k := by
  have hlt := lineHit_lt en d k h
  obtain ⟨h0, hh | hh⟩ := h
  · obtain ⟨hodd, he, h1, hb⟩ := hh
    refine ⟨?_, Or.inl ⟨hodd, he, h1, ?_⟩⟩
    · rw [List.getElem?_append_left hlt]; exact h0
    · rw [List.getElem?_append_left (by omega)]; exact hb
  · obtain ⟨heven, he, h1, hb⟩ := hh
    refine ⟨?_, Or.inr ⟨heven, he, ?_, ?_⟩⟩
    · rw [List.getElem?_append_left hlt]; exact h0
    · rw [List.length_append]; omega
    · rw [List.getElem?_append_left h1]; exact hb

theorem lineHit_of_append (en : Endian) (d e : List Nat) (m : Nat) (hm : m + 1 < d.length)
    (h : lineHit en (d ++ e) m) : lineHit en d m := by
  obtain ⟨h0, hh | hh⟩ := h
  · obtain ⟨hodd, he, h1, hb⟩ := hh
    refine ⟨?_, Or.inl ⟨hodd, he, h1, ?_⟩⟩
    · rw [List.getElem?_append_left (by omega)] at h0; exact h0
    · rw [List.getElem?_append_left (by omega)] at hb; exact hb
  · obtain ⟨heven, he, _, hb⟩ := hh
    refine ⟨?_, Or.inr ⟨heven, he, hm, ?_⟩⟩
    · rw [List.getElem?_append_left (by omega)] at h0; exact h0
    · rw [List.getElem?_append_left hm] at hb; exact hb

theorem lineOfHit_append (d e : List Nat) (k : Nat) (hk : k ≤ d.length) :
    lineOfHit (d ++ e) k = lineOfHit d k := by
  unfold lineOfHit
  rw [List.take_append_of_le_length hk, List.take_append_of_le_length (by omega : k - 1 ≤ d.length)]

/-- A line found by the part after the mark check on `d`, not at end of stream, is
found again on `d ++ e` with either flag. -/
theorem scanLines_append (GOOS : String) (s : Scanner) (d e : List Nat) (atEOF : Bool)
    (r : SplitResult) (s1 : Scanner) (h : scanLines GOOS s d false = some (r, s1))
    (hadv : 0 < r.advance) : scanLines GOOS s (d ++ e) atEOF = some (r, s1) := by
  rcases scanLoop_total s.endian d with ⟨_, hno⟩ | ⟨k, hk, hmin, _⟩
  · rw [scanLines_more GOOS s d hno] at h
    simp only [Option.some.injEq, Prod.mk.injEq] at h
    obtain ⟨hr, _⟩ := h
    subst hr
    simp at hadv
  · have hlt := lineHit_lt s.endian d k hk
    rw [scanLines_hit GOOS s d false k hk hmin] at h
    rw [scanLines_hit GOOS s (d ++ e) atEOF k (lineHit_append s.endian d e k hk)
      (fun m hm hc => hmin m hm (lineHit_of_append s.endian d e m (by omega) hc)),
      lineOfHit_append d e k (by omega)]
    exact h

/-- C17: if the split call on `d`, not at end of stream, returns a positive
advance, then the call from the same closure state on `d ++ e`, with either
end-of-stream flag, returns the same advance, token and error and leaves the same
closure state, the resolved order included. -/
theorem found_line_stable_under_append (GOOS : String) (s : Scanner) (d e : List Nat)
    (atEOF : Bool) (r : SplitResult) (s1 : Scanner)
    (h : splitFunc GOOS s d false = some (r, s1)) (hadv : 0 < r.advance) :
    splitFunc GOOS s (d ++ e) atEOF = some (r, s1) := by
  have hd : d ≠ [] := by
    intro hc
    subst hc
    rcases splitFunc_cases GOOS s [] false with
      ⟨h1, _⟩ | ⟨_, hm, _⟩ | ⟨_, _, k, hk, _⟩ | ⟨_, _, _, h4⟩ | ⟨h5, _⟩
    · simp at h1
    · have := markReturns_length s [] hm
      simp at this
    · have := lineHit_lt s.endian [] k hk
      simp at this
    · rw [h4] at h
      simp only [Option.some.injEq, Prod.mk.injEq] at h
      obtain ⟨hr, _⟩ := h
      subst hr
      simp at hadv
    · simp at h5
  have hne1 : ¬ (false = true ∧ d.length = 0) := by simp
  have hne2 : ¬ (atEOF = true ∧ (d ++ e).length = 0) := by
    intro hc
    have := List.length_pos.mpr hd
    rw [List.length_append] at hc
    omega
  obtain ⟨en, c⟩ := s
  cases c with
  | false =>
    rw [splitFunc_noCheck GOOS en d false hne1] at h
    rw [splitFunc_noCheck GOOS en (d ++ e) atEOF hne2]
    exact scanLines_append GOOS ⟨en, false⟩ d e atEOF r s1 h hadv
  | true =>
    match d, hd, h with
    | [d0], _, h =>
      exfalso
      rcases splitFunc_cases GOOS ⟨en, true⟩ [d0] false with
        ⟨h1, _⟩ | ⟨_, hm, _⟩ | ⟨_, _, k, hk, _⟩ | ⟨_, _, _, h4⟩ | ⟨h5, _⟩
      · simp at h1
      · have := markReturns_length _ [d0] hm
        simp at this
      · have hlt := lineHit_lt en [d0] k hk
        simp only [List.length_singleton] at hlt
        obtain ⟨_, hh | hh⟩ := hk
        · omega
        · have := hh.2.2.1
          simp only [List.length_singleton] at this
          omega
      · rw [h4] at h
        simp only [Option.some.injEq, Prod.mk.injEq] at h
        obtain ⟨hr, _⟩ := h
        subst hr
        simp at hadv
      · simp at h5
    | d0 :: d1 :: rest, _, h =>
      rw [splitFunc_check] at h
      rw [List.cons_append, List.cons_append, splitFunc_check]
      by_cases c1 : uint16 bom = uint16 (uint16 d0 <<< 8) ||| uint16 d1
      · rw [if_pos c1] at h
        rw [if_pos c1]
        exact h
      · rw [if_neg c1] at h
        rw [if_neg c1]
        by_cases c2 : uint16 bom = uint16 (uint16 d1 <<< 8) ||| uint16 d0
        · rw [if_pos c2] at h
          rw [if_pos c2]
          exact h
        · rw [if_neg c2] at h
          rw [if_neg c2]
          exact scanLines_append GOOS ⟨en, false⟩ (d0 :: d1 :: rest) e atEOF r s1 h hadv

theorem found_line_stable_under_append_witness :
    (splitFunc "linux" ⟨unknownEndian, false⟩ [0x41, 0x00, 0x0A, 0x00] false =
        some ({ advance := 4, token := some [0x41, 0x00], err := none },
          ⟨littleEndian, false⟩) ∧
      0 < 4) ∧
    splitFunc "linux" ⟨unknownEndian, false⟩ ([0x41, 0x00, 0x0A, 0x00] ++ [0x42, 0x00]) true =
      some ({ advance := 4, token := some [0x41, 0x00], err := none }, ⟨littleEndian, false⟩) :=
  ⟨⟨by decide, by decide⟩,
    found_line_stable_under_append "linux" ⟨unknownEndian, false⟩ [0x41, 0x00, 0x0A, 0x00]
      [0x42, 0x00] true _ _ (by decide) (by decide)⟩

/-! ## A supplied byte order -/

theorem withoutTrailing_take_two (a b m0 m1 : Nat) (l : List Nat) (h0 : a ≠ m0) (h1 : a ≠ m1) :
    (withoutTrailing a b (m0 :: m1 :: l)).take 2 = [m0, m1] := by
  rcases withoutTrailing_cases a b (m0 :: m1 :: l) with h | h
  · rw [h]
    rfl
  · generalize withoutTrailing a b (m0 :: m1 :: l) = t at h
    match t, h with
    | [], h =>
      simp at h
      exact absurd h.1 h0
    | [x], h =>
      simp at h
      exact absurd h.2.1 h1
    | x :: y :: t1, h =>
      simp at h
      simp [h.1, h.2.1]

/-- With the mark check done and the order fixed, a call on a buffer that begins
with two bytes `m0 m1`, neither of them `00` or `0D` and the first not `0A`, keeps
the order, consumes nothing without returning a token, and every token it returns
begins with `m0 m1`. -/
theorem fixed_order_keeps_leading_bytes (GOOS : String) (X : ByteOrder) (m0 m1 : Nat)
    (rest : List Nat) (atEOF : Bool) (hA : m0 ≠ 0x0A) (h00 : m0 ≠ 0x00) (h0D : m0 ≠ 0x0D)
    (h10 : m1 ≠ 0x00) (h1D : m1 ≠ 0x0D) :
    ∃ r s1, splitFunc GOOS ⟨endianOf X, false⟩ (m0 :: m1 :: rest) atEOF = some (r, s1) ∧
      orderFunc s1 = some X ∧ (r.token = none → r.advance = 0) ∧
      ∀ t, r.token = some t → t.take 2 = [m0, m1] := by
  have hord : ∀ e, e = endianOf X → orderFunc ⟨e, false⟩ = some X := by
    intro e he
    subst he
    cases X <;> rfl
  rcases splitFunc_cases GOOS ⟨endianOf X, false⟩ (m0 :: m1 :: rest) atEOF with
    ⟨_, h2, _⟩ | ⟨_, hm, _⟩ | ⟨_, _, k, hk, _, h⟩ | ⟨_, _, _, h⟩ | ⟨_, _, _, _, h⟩
  · simp at h2
  · have := hm.1
    simp at this
  · refine ⟨_, _, h, hord _ (lineOfHit_order X _ k hk), by simp, fun t ht => ?_⟩
    simp only [Option.some.injEq] at ht
    subst ht
    obtain ⟨h0, hh | hh⟩ := hk
    · obtain ⟨hodd, _, h1, _⟩ := hh
      obtain ⟨j, rfl⟩ : ∃ j, k = j + 3 := ⟨k - 3, by omega⟩
      simp only [lineOfHit, hodd, if_true]
      have : (m0 :: m1 :: rest).take (j + 3 - 1) = m0 :: m1 :: rest.take j := by
        have e : j + 3 - 1 = j + 2 := by omega
        rw [e]
        rfl
      rw [this]
      exact withoutTrailing_take_two _ _ _ _ _ (Ne.symm h00) (Ne.symm h10)
    · obtain ⟨heven, _, _, _⟩ := hh
      have hp : ¬ (k % 2 = 1) := by omega
      have hk0 : k ≠ 0 := by
        intro hc
        subst hc
        simp at h0
        exact hA h0
      obtain ⟨j, rfl⟩ : ∃ j, k = j + 2 := ⟨k - 2, by omega⟩
      simp only [lineOfHit, hp, if_false]
      have : (m0 :: m1 :: rest).take (j + 2) = m0 :: m1 :: rest.take j := rfl
      rw [this]
      exact withoutTrailing_take_two _ _ _ _ _ (Ne.symm h0D) (Ne.symm h1D)
  · exact ⟨_, _, h, hord _ rfl, by simp, fun t ht => by simp at ht⟩
  · refine ⟨_, _, h, hord _ (by cases X <;> rfl), by simp, fun t ht => ?_⟩
    simp only [Option.some.injEq] at ht
    subst ht
    cases X with
    | BigEndian => exact withoutTrailing_take_two _ _ _ _ _ (Ne.symm h00) (Ne.symm h10)
    | LittleEndian => exact withoutTrailing_take_two _ _ _ _ _ (Ne.symm h0D) (Ne.symm h1D)

/-- C12: a scanner built with Big or Little has that order from the start, and its
first call on a buffer that begins with `FE FF` or `FF FE` does not consume these
bytes as a mark: the order stays the supplied one, nothing is consumed without a
token, and a token that is returned begins with the two bytes.  Built with Big, the
buffer `FE FF 00 41 00 0A` gives advance 6 and the token `FE FF 00 41`. -/
theorem supplied_order_bypasses_mark (GOOS : String) (X : ByteOrder) (rest : List Nat)
    (atEOF : Bool) :
    orderFunc (ScanUTF16LinesFunc (some X)) = some X ∧
    (∃ r s1, splitFunc GOOS (ScanUTF16LinesFunc (some X)) (0xFE :: 0xFF :: rest) atEOF =
        some (r, s1) ∧
      orderFunc s1 = some X ∧ (r.token = none → r.advance = 0) ∧
      ∀ t, r.token = some t → t.take 2 = [0xFE, 0xFF]) ∧
    (∃ r s1, splitFunc GOOS (ScanUTF16LinesFunc (some X)) (0xFF :: 0xFE :: rest) atEOF =
        some (r, s1) ∧
      orderFunc s1 = some X ∧ (r.token = none → r.advance = 0) ∧
      ∀ t, r.token = some t → t.take 2 = [0xFF, 0xFE]) ∧
    splitFunc "linux" (ScanUTF16LinesFunc (some ByteOrder.BigEndian))
        [0xFE, 0xFF, 0x00, 0x41, 0x00, 0x0A] false =
      some ({ advance := 6, token := some [0xFE, 0xFF, 0x00, 0x41], err := none },
        ⟨bigEndian, false⟩) := by
  have hs : ScanUTF16LinesFunc (some X) = ⟨endianOf X, false⟩ := by
    cases X <;> rfl
  refine ⟨by cases X <;> rfl, ?_, ?_, by decide⟩
  · rw [hs]
    exact fixed_order_keeps_leading_bytes GOOS X 0xFE 0xFF rest atEOF
      (by decide) (by decide) (by decide) (by decide) (by decide)
  · rw [hs]
    exact fixed_order_keeps_leading_bytes GOOS X 0xFF 0xFE rest atEOF
      (by decide) (by decide) (by decide) (by decide) (by decide)

/-! ## The trimmers and the decoder -/

/-- C15: `dropCRBE(d)` is `d` without its last two bytes if `len(d) >= 2` and the
last two bytes are `00 0D`, and `d` otherwise; `dropCRLE(d)` is the same with
`0D 00`.  Of two trailing carriage-return units only the last is removed. -/
theorem trimmer_contract (d l : List Nat) :
    dropCRBE d =
        some (if 2 ≤ d.length ∧ d.drop (d.length - 2) = [0x00, 0x0D] then
            d.take (d.length - 2) else d) ∧
      dropCRLE d =
        some (if 2 ≤ d.length ∧ d.drop (d.length - 2) = [0x0D, 0x00] then
            d.take (d.length - 2) else d) ∧
      dropCRBE (l ++ [0x00, 0x0D, 0x00, 0x0D]) = some (l ++ [0x00, 0x0D]) ∧
      dropCRLE (l ++ [0x0D, 0x00, 0x0D, 0x00]) = some (l ++ [0x0D, 0x00]) := by
  have key : ∀ a b : Nat, withoutTrailing a b d =
      if 2 ≤ d.length ∧ d.drop (d.length - 2) = [a, b] then d.take (d.length - 2) else d := by
    intro a b
    unfold withoutTrailing
    by_cases h : d.drop (d.length - 2) = [a, b]
    · have hl := congrArg List.length h
      simp at hl
      rw [if_pos h, if_pos ⟨by omega, h⟩]
    · rw [if_neg h, if_neg (fun hc => h hc.2)]
  have two : ∀ a b : Nat, withoutTrailing a b (l ++ [a, b, a, b]) = l ++ [a, b] := by
    intro a b
    have e : l ++ [a, b, a, b] = (l ++ [a, b]) ++ [a, b] := by simp
    rw [e, withoutTrailing_append]
  refine ⟨?_, ?_, ?_, ?_⟩
  · rw [dropCRBE_eq, key]
  · rw [dropCRLE_eq, key]
  · rw [dropCRBE_eq, two]
  · rw [dropCRLE_eq, two]

theorem unitsOf_get (X : ByteOrder) : ∀ (k : Nat) (b : List Nat) (a c : Nat),
    b[2 * k]? = some a → b[2 * k + 1]? = some c →
      (unitsOf X b)[k]? = some (wordOf X a c) := by
  intro k
  induction k with
  | zero =>
    intro b a c ha hc
    match b, ha, hc with
    | x :: y :: rest, ha, hc =>
      simp at ha hc
      subst ha hc
      simp [unitsOf]
  | succ k ih =>
    intro b a c ha hc
    match b, ha, hc with
    | [x], ha, hc => simp at hc
    | x :: y :: rest, ha, hc =>
      have e1 : 2 * (k + 1) = 2 * k + 1 + 1 := by omega
      have e2 : 2 * (k + 1) + 1 = 2 * k + 1 + 1 + 1 := by omega
      rw [e1] at ha
      rw [e2] at hc
      simp only [List.getElem?_cons_succ] at ha hc
      simp only [unitsOf, List.getElem?_cons_succ]
      exact ih rest a c ha hc

/-- Appending a code unit that is no surrogate appends it to the decoding. -/
theorem utf16Decode_append_plain (x : Nat) (hx : x < 0xd800 ∨ 0xe000 ≤ x) :
    ∀ (n : Nat) (l : List Nat), l.length = n →
      utf16Decode (l ++ [x]) = utf16Decode l ++ [x] := by
  intro n
  induction n using Nat.strong_induction_on with
  | _ n ih =>
    intro l hl
    match l, hl with
    | [], _ => simp [utf16Decode, hx]
    | [r], _ =>
      have hlow : ¬ (0xdc00 ≤ x ∧ x < 0xe000) := by omega
      by_cases hr : r < 0xd800 ∨ 0xe000 ≤ r
      · simp [utf16Decode, hr, hx]
      · simp [utf16Decode, hr, hx, hlow]
    | r :: r2 :: rest, hl =>
      simp only [List.length_cons] at hl
      have ih1 := ih (n - 1) (by omega) (r2 :: rest) (by simp; omega)
      have ih2 := ih (n - 2) (by omega) rest (by omega)
      simp only [List.cons_append] at ih1 ⊢
      by_cases hr : r < 0xd800 ∨ 0xe000 ≤ r
      · simp only [utf16Decode, hr, if_true, ih1, List.cons_append]
      · by_cases hp : 0xd800 ≤ r ∧ r < 0xdc00 ∧ 0xdc00 ≤ r2 ∧ r2 < 0xe000
        · simp only [utf16Decode, hr, hp, if_false, if_true, and_self, ih2, List.cons_append]
        · simp only [utf16Decode, hr, hp, if_false, ih1, List.cons_append]

theorem stringOfRunes_append (l m : List Nat) :
    stringOfRunes (l ++ m) = stringOfRunes l ++ stringOfRunes m := by
  simp [stringOfRunes]

/-- C13: for a byte sequence of odd length and either order, `UTF16BytesToString`
returns; the string is decoded from `(len(b)+1)/2` code units, the first
`len(b)/2` of them the byte pairs of `b` read in that order and the last U+FFFD;
and the last code point of the string is U+FFFD (UTF-8 bytes `EF BF BD`). -/
theorem odd_length_ends_in_replacement (b : List Nat) (X : ByteOrder)
    (hodd : b.length % 2 = 1) :
    UTF16BytesToString b (some X) =
        some (stringOfRunes (utf16Decode (unitsOf X b ++ [0xFFFD]))) ∧
      (unitsOf X b ++ [0xFFFD]).length = (b.length + 1) / 2 ∧
      (unitsOf X b).length = b.length / 2 ∧
      (∀ (k a c : Nat), b[2 * k]? = some a → b[2 * k + 1]? = some c →
        (unitsOf X b)[k]? = some (wordOf X a c)) ∧
      utf16Decode (unitsOf X b ++ [0xFFFD]) = utf16Decode (unitsOf X b) ++ [0xFFFD] ∧
      stringOfRunes (utf16Decode (unitsOf X b ++ [0xFFFD])) =
        stringOfRunes (utf16Decode (unitsOf X b)) ++ [0xEF, 0xBF, 0xBD] := by
  have hlen := unitsOf_length X b.length b rfl
  have happ := utf16Decode_append_plain 0xFFFD (by decide) _ (unitsOf X b) rfl
  refine ⟨?_, ?_, hlen, fun k a c => unitsOf_get X k b a c, happ, ?_⟩
  · rw [UTF16BytesToString_eq, if_pos hodd]
  · rw [List.length_append, hlen]
    simp
    omega
  · rw [happ, stringOfRunes_append]
    rfl

theorem odd_length_ends_in_replacement_witness :
    ([0x00, 0x41, 0x00] : List Nat).length % 2 = 1 ∧
      UTF16BytesToString [0x00, 0x41, 0x00] (some ByteOrder.BigEndian) =
        some [0x41, 0xEF, 0xBF, 0xBD] :=
  ⟨by decide,
    (odd_length_ends_in_replacement [0x00, 0x41, 0x00] ByteOrder.BigEndian (by decide)).1⟩

theorem utf16Decode_cons_plain (r : Nat) (l : List Nat) (hr : r < 0xd800 ∨ 0xe000 ≤ r) :
    utf16Decode (r :: l) = r :: utf16Decode l := by
  cases l with
  | nil => simp [utf16Decode, hr]
  | cons r2 rest => simp [utf16Decode, hr]

theorem DecodeRune_pair (v : Nat) (hv : v < 0x100000) :
    DecodeRune (0xD800 + v / 1024 % 1024) (0xDC00 + v % 1024) = v + 0x10000 := by
  unfold DecodeRune
  have h1 : 0xD800 + v / 1024 % 1024 - 0xd800 = v / 1024 := by omega
  have h2 : 0xDC00 + v % 1024 - 0xdc00 = v % 1024 := by omega
  rw [h1, h2, Nat.shiftLeft_eq]
  have h10 : (2 : Nat) ^ 10 = 1024 := by norm_num
  have := Nat.mul_add_lt_is_or (i := 10) (b := v % 1024) (by omega) (v / 1024)
  rw [h10, Nat.mul_comm] at this
  rw [h10, ← this]
  omega

theorem utf16Decode_encodeRune (r : Nat) (l : List Nat) (hr : isScalar r) :
    utf16Decode (utf16EncodeRune r ++ l) = r :: utf16Decode l := by
  unfold utf16EncodeRune
  by_cases h : r < 0x10000
  · rw [if_pos h]
    have hp : r < 0xd800 ∨ 0xe000 ≤ r := by
      rcases hr with h1 | h1
      · exact Or.inl h1
      · exact Or.inr h1.1
    exact utf16Decode_cons_plain r l hp
  · rw [if_neg h]
    have hmax : r ≤ 0x10FFFF := by
      rcases hr with h1 | h1
      · omega
      · exact h1.2
    have hn : ¬ (0xD800 + (r - 0x10000) / 1024 % 1024 < 0xd800 ∨
        0xe000 ≤ 0xD800 + (r - 0x10000) / 1024 % 1024) := by omega
    have hp : 0xd800 ≤ 0xD800 + (r - 0x10000) / 1024 % 1024 ∧
        0xD800 + (r - 0x10000) / 1024 % 1024 < 0xdc00 ∧
        0xdc00 ≤ 0xDC00 + (r - 0x10000) % 1024 ∧ 0xDC00 + (r - 0x10000) % 1024 < 0xe000 := by
      omega
    simp only [List.cons_append, List.nil_append, utf16Decode, hn, hp, if_false, if_true,
      and_self]
    rw [DecodeRune_pair _ (by omega)]
    congr 1
    omega

theorem utf16Decode_encode (rs : List Nat) (h : ∀ r ∈ rs, isScalar r) :
    utf16Decode (utf16Encode rs) = rs := by
  induction rs with
  | nil => rfl
  | cons r rs ih =>
    have e : utf16Encode (r :: rs) = utf16EncodeRune r ++ utf16Encode rs := by
      simp [utf16Encode]
    rw [e, utf16Decode_encodeRune r _ (h r (by simp)), ih (fun x hx => h x (by simp [hx]))]

theorem utf16Encode_units (rs : List Nat) : ∀ x ∈ utf16Encode rs, x < 65536 := by
  intro x hx
  simp only [utf16Encode, List.mem_flatMap] at hx
  obtain ⟨r, hr, hxr⟩ := hx
  unfold utf16EncodeRune at hxr
  by_cases hlt : r < 0x10000
  · rw [if_pos hlt] at hxr
    simp at hxr
    omega
  · rw [if_neg hlt] at hxr
    simp at hxr
    omega

/-- C14: for a sequence `rs` of Unicode scalar values and either order `X`,
`UTF16BytesToString` of the order-`X` bytes of the UTF-16 encoding of `rs` (with
surrogate pairs above U+FFFF) is the string of exactly the code points `rs`. -/
theorem decoder_round_trip (rs : List Nat) (X : ByteOrder) (h : ∀ r ∈ rs, isScalar r) :
    UTF16BytesToString (encodeUnits X (utf16Encode rs)) (some X) = some (stringOfRunes rs) ∧
      utf16Decode (unitsOf X (encodeUnits X (utf16Encode rs))) = rs := by
  have hu := unitsOf_encodeUnits X (utf16Encode rs) (utf16Encode_units rs)
  have hd := utf16Decode_encode rs h
  refine ⟨?_, by rw [hu, hd]⟩
  rw [UTF16BytesToString_eq, hu, encodeUnits_length]
  have : ¬ (2 * (utf16Encode rs).length % 2 = 1) := by omega
  rw [if_neg this, List.append_nil, hd]

theorem decoder_round_trip_witness :
    (∀ r ∈ [0x41, 0x1F600, 0xFFFD], isScalar r) ∧
      UTF16BytesToString [0x00, 0x41, 0xD8, 0x3D, 0xDE, 0x00, 0xFF, 0xFD]
          (some ByteOrder.BigEndian) =
        some [0x41, 0xF0, 0x9F, 0x98, 0x80, 0xEF, 0xBF, 0xBD] :=
  ⟨by decide, (decoder_round_trip [0x41, 0x1F600, 0xFFFD] ByteOrder.BigEndian (by decide)).1⟩

/-! ## Newlines inside a token -/

theorem prefix_getElem? (t data : List Nat) (k v : Nat) (hp : t <+: data)
    (h : t[k]? = some v) : data[k]? = some v := by
  obtain ⟨r, rfl⟩ := hp
  have hk : k < t.length := by
    by_contra hc
    rw [List.getElem?_eq_none (by omega)] at h
    simp at h
  rw [List.getElem?_append_left hk]
  exact h

/-- With the mark check done and the order fixed to `X`, a token returned by the
split function holds no code-unit-aligned newline in order `X`, except that for
Big it can hold one at offset 0. -/
theorem token_newline_only_at_start_big (GOOS : String) (X : ByteOrder) (data : List Nat)
    (atEOF : Bool) (r : SplitResult) (s1 : Scanner) (t : List Nat)
    (h : splitFunc GOOS ⟨endianOf X, false⟩ data atEOF = some (r, s1))
    (ht : r.token = some t) (k : Nat) (hk : alignedNewlineAt X t k) :
    X = ByteOrder.BigEndian ∧ k = 0 := by
  -- a newline pair inside a prefix of the buffer is a hit of the loop, unless it
  -- is the Big pair at offset 0
  have hit : ∀ t1 : List Nat, t1 <+: data → alignedNewlineAt X t1 k →
      ¬ (X = ByteOrder.BigEndian ∧ k = 0) →
      ∃ m, m ≤ k + 1 ∧ m + 1 ≤ t1.length ∧
        lineHit (endianOf X) data m := by
    intro t1 hp ⟨hev, hnl⟩ hne
    cases X with
    | BigEndian =>
      obtain ⟨ha, hb⟩ := hnl
      have hlt : k + 1 < t1.length := by
        by_contra hc
        rw [List.getElem?_eq_none (by omega)] at hb
        simp at hb
      refine ⟨k + 1, by omega, by omega, prefix_getElem? _ _ _ _ hp hb,
        Or.inl ⟨by omega, by simp [endianOf], ?_, ?_⟩⟩
      · have : k ≠ 0 := fun hc => hne ⟨rfl, hc⟩
        omega
      · simpa using prefix_getElem? _ _ _ _ hp ha
    | LittleEndian =>
      obtain ⟨ha, hb⟩ := hnl
      have hlt : k + 1 < t1.length := by
        by_contra hc
        rw [List.getElem?_eq_none (by omega)] at hb
        simp at hb
      have hb' := prefix_getElem? _ _ _ _ hp hb
      have hlt2 : k + 1 < data.length := by
        by_contra hc
        rw [List.getElem?_eq_none (by omega)] at hb'
        simp at hb'
      exact ⟨k, by omega, by omega, prefix_getElem? _ _ _ _ hp ha,
        Or.inr ⟨hev, by simp [endianOf], hlt2, hb'⟩⟩
  by_contra hne
  rcases splitFunc_cases GOOS ⟨endianOf X, false⟩ data atEOF with
    ⟨_, _, h1⟩ | ⟨_, _, e, _, h1⟩ | ⟨_, _, kk, hkk, hmin, h1⟩ | ⟨_, _, _, h1⟩ |
    ⟨_, _, _, hno, h1⟩
  all_goals
    rw [h1] at h
    simp only [Option.some.injEq, Prod.mk.injEq] at h
    obtain ⟨hr, _⟩ := h
    subst hr
    simp only [Option.some.injEq] at ht
  · simp at ht
  · simp at ht
  · subst ht
    have hpre := (lineOfHit_facts _ data kk hkk).2.2.2.1
    obtain ⟨m, hm1, hm2, hm⟩ := hit _ hpre hk hne
    have hkklt := lineHit_lt _ data kk hkk
    refine hmin m ?_ hm
    -- the token ends before the newline byte of the hit
    obtain ⟨_, hh | hh⟩ := hkk
    · obtain ⟨hodd, he, h1k, _⟩ := hh
      have hX : X = ByteOrder.BigEndian := by
        cases X with
        | BigEndian => rfl
        | LittleEndian => exact absurd rfl he
      subst hX
      have hle := withoutTrailing_length_le 0x00 0x0D (data.take (kk - 1))
      rw [List.length_take] at hle
      simp only [lineOfHit, hodd, if_true] at hm2
      omega
    · obtain ⟨heven, he, _, _⟩ := hh
      have hX : X = ByteOrder.LittleEndian := by
        cases X with
        | BigEndian => exact absurd rfl he
        | LittleEndian => rfl
      subst hX
      have hp : ¬ (kk % 2 = 1) := by omega
      have hle := withoutTrailing_length_le 0x0D 0x00 (data.take kk)
      rw [List.length_take] at hle
      simp only [lineOfHit, hp, if_false] at hm2
      omega
  · simp at ht
  · subst ht
    obtain ⟨m, _, _, hm⟩ := hit _ (flushToken_initial _ data) hk hne
    exact hno m hm

/-- C16, the code at the failing input: a scanner built with Big, called on the
buffer `00 0A 00 41 00 0A`, returns the token `00 0A 00 41`, which holds the
code-unit-aligned newline `00 0A` at offset 0; at end of stream the buffer `00 0A`
is returned whole as a token. -/
theorem big_token_holds_leading_newline :
    splitFunc "linux" (ScanUTF16LinesFunc (some ByteOrder.BigEndian))
        [0x00, 0x0A, 0x00, 0x41, 0x00, 0x0A] false =
      some ({ advance := 6, token := some [0x00, 0x0A, 0x00, 0x41], err := none },
        ⟨bigEndian, false⟩) ∧
    alignedNewlineAt ByteOrder.BigEndian [0x00, 0x0A, 0x00, 0x41] 0 ∧
    splitFunc "linux" (ScanUTF16LinesFunc (some ByteOrder.BigEndian)) [0x00, 0x0A] true =
      some ({ advance := 2, token := some [0x00, 0x0A], err := none }, ⟨bigEndian, false⟩) ∧
    alignedNewlineAt ByteOrder.BigEndian [0x00, 0x0A] 0 := by
  decide

end Ad2j
